import Mathlib

/-!
# go-docc: the streaming paragraph scanner and the section aggregator

A shallow embedding of `docc.go`.  Go strings are Lean strings, a Go `error`
is an `Option Err` (`none` is `nil`), and the pointer-held `*xml.Decoder` is a
value that every function hands back after reading from it.
-/

namespace Docc

/-! ## Data model -/

/-- The error values the package can see: `io.EOF`, its own
`ErrNotSupportFormat`, and every other error (XML syntax errors, archive and
file-system errors), told apart by their message. -/
inductive Err where
  | EOF
  | ErrNotSupportFormat
  | other (msg : String)
deriving DecidableEq

/-- An `xml.Name`. -/
structure Name where
  Space : String
  Local : String
deriving DecidableEq

/-- The `xml.Token` variants.  The attribute list of a `StartElement` is left
out: no function of the package reads it. -/
inductive Token where
  | StartElement (Name : Name)
  | EndElement (Name : Name)
  | CharData (data : String)
  | Comment (data : String)
  | ProcInst (target : String) (inst : String)
  | Directive (data : String)
deriving DecidableEq

/-- An `*xml.Decoder` seen through its only used method, `Token()`: the calls
return the events of `tokens` one by one and, once they are used up, the error
`err` on every further call (`io.EOF` for an exhausted input, another error
for a tokenizer failure).  The structure itself does not tie `err` to the
events; the tie `encoding/xml` keeps, `io.EOF` only with no element open, is
the predicate `isXMLStream`. -/
structure Decoder where
  tokens : List Token
  err : Err
deriving DecidableEq

/-- The `FileReader` struct: the entry name and the decoder over its bytes.
The `xml` field is the handle the decoder reads from. -/
structure FileReader where
  fileName : String
  decoder : Decoder
deriving DecidableEq

/-- A `zip.File` header, by its name. -/
structure ZipFile where
  Name : String
deriving DecidableEq

/-- A `zip.Reader`: the listed entries, and `Open` followed by
`xml.NewDecoder`, which gives the token stream of the named entry or the
error of the failed open. -/
structure ZipReader where
  File : List ZipFile
  Open : String → Except Err Decoder

/-- The `Reader` struct. `docx` tells whether the archive handle is set. -/
structure Reader where
  docxPath : String
  fromDoc : Bool
  docx : Bool
  fileReaders : List FileReader
deriving DecidableEq

/-- The five named results of `ReadAllFiles`. -/
structure ReadResult where
  headerValue : String
  contentValue : String
  footerValue : String
  footnotesValue : String
  err : Option Err
deriving DecidableEq

def xmlParagraph : String := "p"

def xmlTab : String := "t"

/-! ## Library functions used by the package -/

/-- Whether `sub` starts the list `l`. -/
def matchesAt : List Char → List Char → Bool
  | [], _ => true
  | _ :: _, [] => false
  | a :: as, b :: bs => a == b && matchesAt as bs

/-- Whether `sub` occurs in `l` as a contiguous run. -/
def containsChars (sub : List Char) : List Char → Bool
  | [] => matchesAt sub []
  | c :: cs => matchesAt sub (c :: cs) || containsChars sub cs

/-- Go `strings.Contains`: case-sensitive substring containment. -/
def Contains (s substr : String) : Bool :=
  containsChars substr.data s.data

/-- Go `unicode.IsSpace`: the code points with the White_Space property. -/
def isSpace (c : Char) : Bool :=
  let n := c.toNat
  (9 ≤ n && n ≤ 13) || n == 32 || n == 133 || n == 160 || n == 5760 ||
  (8192 ≤ n && n ≤ 8202) || n == 8232 || n == 8233 || n == 8239 ||
  n == 8287 || n == 12288

/-- Go `strings.TrimSpace`: drop the leading and the trailing white space. -/
def TrimSpace (s : String) : String :=
  String.mk ((s.data.dropWhile isSpace).reverse.dropWhile isSpace).reverse

/-! ## The scanner -/

/-- The loop of `seekText` over the events still to come: the result pair and
the events left unread. -/
def seekTextLoop (err : Err) : List Token → (String × Option Err) × List Token
  | [] => (("", some err), [])
  | Token.CharData data :: rest => ((data, none), rest)
  | Token.EndElement _ :: rest => (("", none), rest)
  | Token.StartElement _ :: rest => seekTextLoop err rest
  | Token.Comment _ :: rest => seekTextLoop err rest
  | Token.ProcInst _ _ :: rest => seekTextLoop err rest
  | Token.Directive _ :: rest => seekTextLoop err rest

theorem seekTextLoop_length (err : Err) (tokens : List Token) :
    (seekTextLoop err tokens).2.length ≤ tokens.length := by
  induction tokens with
  | nil => simp [seekTextLoop]
  | cons tok rest ih =>
    cases tok <;> simp [seekTextLoop] <;> omega

/-- The loop of `seekParagraph`, with the builder `paragraph` filled so far. -/
def seekParagraphLoop (err : Err) (paragraph : String) (tokens : List Token) :
    (String × Option Err) × List Token :=
  match tokens with
  | [] => (("", some err), [])
  | Token.EndElement n :: rest =>
    if n.Local = xmlParagraph then ((paragraph, none), rest)
    else seekParagraphLoop err paragraph rest
  | Token.StartElement n :: rest =>
    if n.Local = xmlTab then
      match (seekTextLoop err rest).1.2 with
      | some e => (("", some e), (seekTextLoop err rest).2)
      | none =>
        seekParagraphLoop err (paragraph ++ (seekTextLoop err rest).1.1)
          (seekTextLoop err rest).2
    else seekParagraphLoop err paragraph rest
  | Token.CharData _ :: rest => seekParagraphLoop err paragraph rest
  | Token.Comment _ :: rest => seekParagraphLoop err paragraph rest
  | Token.ProcInst _ _ :: rest => seekParagraphLoop err paragraph rest
  | Token.Directive _ :: rest => seekParagraphLoop err paragraph rest
termination_by tokens.length
decreasing_by
  all_goals simp_wf
  all_goals first
    | omega
    | exact Nat.lt_succ_of_le (seekTextLoop_length err rest)

/-- The loop of `seekNextTag`. -/
def seekNextTagLoop (err : Err) (tag : String) : List Token → Option Err × List Token
  | [] => (some err, [])
  | Token.StartElement n :: rest =>
    if n.Local ≠ tag then seekNextTagLoop err tag rest else (none, rest)
  | Token.EndElement _ :: rest => seekNextTagLoop err tag rest
  | Token.CharData _ :: rest => seekNextTagLoop err tag rest
  | Token.Comment _ :: rest => seekNextTagLoop err tag rest
  | Token.ProcInst _ _ :: rest => seekNextTagLoop err tag rest
  | Token.Directive _ :: rest => seekNextTagLoop err tag rest

def seekText (decoder : Decoder) : (String × Option Err) × Decoder :=
  ((seekTextLoop decoder.err decoder.tokens).1,
   ⟨(seekTextLoop decoder.err decoder.tokens).2, decoder.err⟩)

def seekParagraph (decoder : Decoder) : (String × Option Err) × Decoder :=
  ((seekParagraphLoop decoder.err "" decoder.tokens).1,
   ⟨(seekParagraphLoop decoder.err "" decoder.tokens).2, decoder.err⟩)

def seekNextTag (decoder : Decoder) (tag : String) : Option Err × Decoder :=
  ((seekNextTagLoop decoder.err tag decoder.tokens).1,
   ⟨(seekNextTagLoop decoder.err tag decoder.tokens).2, decoder.err⟩)

/-- The method `Reader.read`. -/
def read (decoder : Decoder) : (String × Option Err) × Decoder :=
  match (seekNextTag decoder xmlParagraph).1 with
  | some e => (("", some e), (seekNextTag decoder xmlParagraph).2)
  | none =>
    match (seekParagraph (seekNextTag decoder xmlParagraph).2).1.2 with
    | some e => (("", some e), (seekParagraph (seekNextTag decoder xmlParagraph).2).2)
    | none =>
      (((seekParagraph (seekNextTag decoder xmlParagraph).2).1.1, none),
        (seekParagraph (seekNextTag decoder xmlParagraph).2).2)

theorem seekNextTagLoop_length (err : Err) (tag : String) (tokens : List Token) :
    (seekNextTagLoop err tag tokens).1 = none →
      (seekNextTagLoop err tag tokens).2.length < tokens.length := by
  induction tokens with
  | nil => simp [seekNextTagLoop]
  | cons tok rest ih =>
    cases tok with
    | StartElement n =>
      by_cases hn : n.Local = tag
      · simp [seekNextTagLoop, hn]
      · simp only [seekNextTagLoop, hn, ne_eq, not_false_eq_true, if_true, List.length_cons]
        intro h
        exact Nat.lt_succ_of_lt (ih h)
    | _ =>
      simp only [seekNextTagLoop, List.length_cons]
      intro h
      exact Nat.lt_succ_of_lt (ih h)

theorem seekParagraphLoop_length (err : Err) :
    ∀ (n : Nat) (tokens : List Token) (paragraph : String), tokens.length ≤ n →
      (seekParagraphLoop err paragraph tokens).1.2 = none →
      (seekParagraphLoop err paragraph tokens).2.length < tokens.length := by
  intro n
  induction n with
  | zero =>
    intro tokens paragraph hlen
    have : tokens = [] := List.length_eq_zero.mp (Nat.le_zero.mp hlen)
    subst this
    simp [seekParagraphLoop]
  | succ n ih =>
    intro tokens paragraph hlen
    cases tokens with
    | nil => simp [seekParagraphLoop]
    | cons tok rest =>
      have hrest : rest.length ≤ n := by simpa using hlen
      cases tok with
      | EndElement nm =>
        rw [seekParagraphLoop]
        by_cases hn : nm.Local = xmlParagraph
        · simp [hn]
        · simp only [hn, if_false, List.length_cons]
          intro h
          exact Nat.lt_succ_of_lt (ih rest paragraph hrest h)
      | StartElement nm =>
        rw [seekParagraphLoop]
        by_cases hn : nm.Local = xmlTab
        · simp only [hn, if_true, List.length_cons]
          have hl := seekTextLoop_length err rest
          cases hs : (seekTextLoop err rest).1.2 with
          | some e => simp
          | none =>
            simp only
            intro h
            have := ih (seekTextLoop err rest).2 _ (le_trans hl hrest) h
            omega
        · simp only [hn, if_false, List.length_cons]
          intro h
          exact Nat.lt_succ_of_lt (ih rest paragraph hrest h)
      | _ =>
        rw [seekParagraphLoop]
        simp only [List.length_cons]
        intro h
        exact Nat.lt_succ_of_lt (ih rest paragraph hrest h)

theorem read_length (decoder : Decoder) :
    (read decoder).1.2 = none → (read decoder).2.tokens.length < decoder.tokens.length := by
  unfold read
  cases h1 : (seekNextTag decoder xmlParagraph).1 with
  | some e => simp
  | none =>
    have l1 := seekNextTagLoop_length decoder.err xmlParagraph decoder.tokens h1
    cases h2 : (seekParagraph (seekNextTag decoder xmlParagraph).2).1.2 with
    | some e => simp
    | none =>
      simp only
      intro _
      have l2 := seekParagraphLoop_length decoder.err _ _ "" (le_refl _) h2
      exact lt_trans l2 l1

/-- The loop of `readSingleFile`, with the builder `content` filled so far. -/
def readSingleFileLoop (content : String) (decoder : Decoder) :
    (String × Option Err) × Decoder :=
  if (read decoder).1.2 = some Err.EOF then ((content, none), (read decoder).2)
  else if _h : (read decoder).1.2 ≠ none then (("", (read decoder).1.2), (read decoder).2)
  else readSingleFileLoop (content ++ (read decoder).1.1 ++ " ") (read decoder).2
termination_by decoder.tokens.length
decreasing_by
  apply read_length
  exact not_not.mp (by assumption)

/-- The method `Reader.readSingleFile`. -/
def readSingleFile (decoder : Decoder) : (String × Option Err) × Decoder :=
  readSingleFileLoop "" decoder

def trimmedString (input : String) : String :=
  TrimSpace input

/-- The loop of `ReadAllFiles` over the file readers, with the four builders
filled so far; besides the results it gives the file readers back, each with
its decoder where the loop left it. -/
def ReadAllFilesLoop (header footer footnotes content : String) :
    List FileReader → ReadResult × List FileReader
  | [] =>
    (⟨trimmedString header, trimmedString content, trimmedString footer,
      trimmedString footnotes, none⟩, [])
  | fileReader :: rest =>
    match (readSingleFile fileReader.decoder).1.2 with
    | some e =>
      (⟨"", "", "", "", some e⟩,
        ⟨fileReader.fileName, (readSingleFile fileReader.decoder).2⟩ :: rest)
    | none =>
      let fileContent := (readSingleFile fileReader.decoder).1.1
      let done : FileReader := ⟨fileReader.fileName, (readSingleFile fileReader.decoder).2⟩
      if Contains fileReader.fileName "header" then
        ((ReadAllFilesLoop (header ++ fileContent) footer footnotes content rest).1,
          done :: (ReadAllFilesLoop (header ++ fileContent) footer footnotes content rest).2)
      else if Contains fileReader.fileName "footer" then
        ((ReadAllFilesLoop header (footer ++ fileContent) footnotes content rest).1,
          done :: (ReadAllFilesLoop header (footer ++ fileContent) footnotes content rest).2)
      else if Contains fileReader.fileName "footnotes" then
        ((ReadAllFilesLoop header footer (footnotes ++ fileContent) content rest).1,
          done :: (ReadAllFilesLoop header footer (footnotes ++ fileContent) content rest).2)
      else
        ((ReadAllFilesLoop header footer footnotes (content ++ fileContent) rest).1,
          done :: (ReadAllFilesLoop header footer footnotes (content ++ fileContent) rest).2)

/-- The method `Reader.ReadAllFiles`: the results and the reader afterwards. -/
def ReadAllFiles (r : Reader) : ReadResult × Reader :=
  ((ReadAllFilesLoop "" "" "" "" r.fileReaders).1,
    { r with fileReaders := (ReadAllFilesLoop "" "" "" "" r.fileReaders).2 })

/-- The loop of `getFileReaders` over the listed entries, with the slice
`fileReaders` built so far. -/
def getFileReadersLoop (zipReader : ZipReader) (fileReaders : List FileReader) :
    List ZipFile → List FileReader × Option Err
  | [] => (fileReaders, none)
  | file :: rest =>
    if file.Name = "word/document.xml" ∨ Contains file.Name "header" = true ∨
        Contains file.Name "footer" = true ∨ Contains file.Name "footnotes" = true then
      match zipReader.Open file.Name with
      | Except.error err => ([], some err)
      | Except.ok openedFile =>
        getFileReadersLoop zipReader (fileReaders ++ [⟨file.Name, openedFile⟩]) rest
    else getFileReadersLoop zipReader fileReaders rest

def getFileReaders (zipReader : ZipReader) : List FileReader × Option Err :=
  getFileReadersLoop zipReader [] zipReader.File

/-! ## Shapes of token streams and the section text of the specification -/

/-- The start event of the element `tag` in the namespace `space`. -/
def startOf (space tag : String) : Token := Token.StartElement ⟨space, tag⟩

/-- The end event of the element `tag` in the namespace `space`. -/
def endOf (space tag : String) : Token := Token.EndElement ⟨space, tag⟩

/-- Whether the event is a `StartElement` with the local name `tag`. -/
def isStartOf (tag : String) : Token → Bool
  | Token.StartElement n => n.Local == tag
  | _ => false

/-- Whether the event is an `EndElement` with the local name `tag`. -/
def isEndOf (tag : String) : Token → Bool
  | Token.EndElement n => n.Local == tag
  | _ => false

/-- One piece of a paragraph body: a complete tab, with or without its
character data, or a single other event. -/
inductive Piece where
  | tab (space : String) (text : Option String)
  | other (tok : Token)

/-- The events of a piece. -/
def Piece.events : Piece → List Token
  | Piece.tab space (some c) => [startOf space xmlTab, Token.CharData c, endOf space xmlTab]
  | Piece.tab space none => [startOf space xmlTab, endOf space xmlTab]
  | Piece.other tok => [tok]

/-- The text a piece carries: the character data of a tab. -/
def Piece.text : Piece → String
  | Piece.tab _ (some c) => c
  | Piece.tab _ none => ""
  | Piece.other _ => ""

/-- An other event of a body is neither a start of `t` nor an end of `p`. -/
def Piece.ok : Piece → Bool
  | Piece.tab _ _ => true
  | Piece.other tok => !isStartOf xmlTab tok && !isEndOf xmlParagraph tok

def bodyEvents : List Piece → List Token
  | [] => []
  | piece :: rest => piece.events ++ bodyEvents rest

def bodyText : List Piece → String
  | [] => ""
  | piece :: rest => piece.text ++ bodyText rest

/-- A closed paragraph, with the events that come before its start. -/
structure Para where
  before : List Token
  space : String
  body : List Piece

def Para.events (para : Para) : List Token :=
  para.before ++ startOf para.space xmlParagraph ::
    (bodyEvents para.body ++ [endOf para.space xmlParagraph])

/-- No paragraph starts in the events before the paragraph, and its body is
made of complete tabs and of events that are neither a start of `t` nor an end
of `p`. -/
def Para.ok (para : Para) : Bool :=
  para.before.all (fun tok => !isStartOf xmlParagraph tok) && para.body.all Piece.ok

def docEvents : List Para → List Token
  | [] => []
  | para :: rest => para.events ++ docEvents rest

/-- The text of the paragraphs, each followed by one space. -/
def docText : List Para → String
  | [] => ""
  | para :: rest => bodyText para.body ++ " " ++ docText rest

/-- The four sections of the specification. -/
inductive Section where
  | Header
  | Content
  | Footer
  | Footnotes
deriving DecidableEq

/-- The section of a part name, by the precedence of the specification. -/
def sectionOf (fileName : String) : Section :=
  if Contains fileName "header" then Section.Header
  else if Contains fileName "footer" then Section.Footer
  else if Contains fileName "footnotes" then Section.Footnotes
  else Section.Content

/-- The strings of a list written one after the other, nothing between them. -/
def joinAll : List String → String
  | [] => ""
  | s :: rest => s ++ joinAll rest

/-- The section text of the specification: the texts `readSingleFile` gives
for exactly the parts classified into the section, in the order of the list,
joined with no separator. -/
def sectionText (sec : Section) (fileReaders : List FileReader) : String :=
  joinAll ((fileReaders.filter (fun fileReader => sectionOf fileReader.fileName = sec)).map
    (fun fileReader => (readSingleFile fileReader.decoder).1.1))

/-- A paragraph with one run holding one tab, as a word processor writes it. -/
def sampleParagraph (text : String) : List Token :=
  [startOf "w" "p", startOf "w" "r", startOf "w" "t", Token.CharData text, endOf "w" "t",
    endOf "w" "r", endOf "w" "p"]

/-- A reader over a body part, a footer part and a header part. -/
def sampleReader : Reader :=
  ⟨"test_header_footer.docx", false, true,
    [⟨"word/document.xml", ⟨sampleParagraph "Title" ++ sampleParagraph "Subtitle", Err.EOF⟩⟩,
     ⟨"word/footer1.xml", ⟨sampleParagraph "test footer", Err.EOF⟩⟩,
     ⟨"word/header1.xml", ⟨sampleParagraph "test header", Err.EOF⟩⟩]⟩

/-- The events of a document cut off inside its second paragraph, with the
syntax error the decoder gives at the end of such an input. -/
def unclosedStream : Decoder :=
  ⟨[startOf "w" "p", startOf "w" "t", Token.CharData "a", endOf "w" "t", endOf "w" "p",
    startOf "w" "p", startOf "w" "t", Token.CharData "b", endOf "w" "t"],
    Err.other "XML syntax error on line 1: unexpected EOF"⟩

/-- A reader whose second part ends in a syntax error after one paragraph. -/
def failingReader : Reader :=
  ⟨"a.docx", false, true,
    [⟨"word/document.xml", ⟨sampleParagraph "Title", Err.EOF⟩⟩] ++
      ⟨"word/header1.xml", ⟨sampleParagraph "kept" ++ [startOf "w" "p"],
        Err.other "XML syntax error"⟩⟩ :: []⟩

/-- An archive listing of five entries, each of which opens to an empty
stream. -/
def sampleZip : ZipReader :=
  ⟨[⟨"[Content_Types].xml"⟩, ⟨"word/header1.xml"⟩, ⟨"word/document.xml"⟩,
    ⟨"word/styles.xml"⟩, ⟨"word/footnotes.xml"⟩],
    fun _ => Except.ok ⟨[], Err.EOF⟩⟩

/-- The same listing in an archive whose footnotes entry cannot be opened. -/
def brokenZip : ZipReader :=
  ⟨[⟨"[Content_Types].xml"⟩, ⟨"word/header1.xml"⟩, ⟨"word/document.xml"⟩,
    ⟨"word/styles.xml"⟩, ⟨"word/footnotes.xml"⟩],
    fun name =>
      if name = "word/footnotes.xml" then Except.error (Err.other "zip: checksum error")
      else Except.ok ⟨[], Err.EOF⟩⟩

/-- The entries `getFileReaders` is specified to select. -/
def isSelected (name : String) : Bool :=
  name == "word/document.xml" || Contains name "header" || Contains name "footer" ||
    Contains name "footnotes"

/-! ## Building and closing a reader -/

/-- What the package sees of the file system and of the zip library:
`ReadFile` gives the bytes of the file at a path, or the error of opening it;
`zipNewReader` is `zip.NewReader` on a byte buffer, the archive found in the
bytes or the error of reading its directory. -/
structure Env where
  ReadFile : String → Except Err (List Nat)
  zipNewReader : List Nat → Except Err ZipReader

/-- The effects the package has on the world outside: the paths it asked the
file system to open as archives, the handles it closed, and the files it
removed, each in the order of the calls. -/
structure Effects where
  opened : List String
  closed : List String
  removed : List String
deriving DecidableEq

/-- The loop of `filepath.Ext`, from the last byte of the path backwards:
`acc` holds the bytes already passed. -/
def extLoop : List Char → List Char → List Char
  | [], _ => []
  | c :: rest, acc =>
    if c = '/' then []
    else if c = '.' then '.' :: acc
    else extLoop rest (c :: acc)

/-- Go `filepath.Ext`: the suffix that begins at the last dot of the last
element of the path, empty when that element has no dot. -/
def Ext (path : String) : String :=
  String.mk (extLoop path.data.reverse [])

/-- The lower case of a rune as far as it can be an ASCII character: the
letters `A` to `Z`, the Kelvin sign and the dotted capital I.  Every other
rune has a lower case outside ASCII and is kept as it is. -/
def lowerRune (c : Char) : Char :=
  if 65 ≤ c.toNat ∧ c.toNat ≤ 90 then Char.ofNat (c.toNat + 32)
  else if c.toNat = 8490 then 'k'
  else if c.toNat = 304 then 'i'
  else c

/-- Go `strings.ToLower`, rune by rune. -/
def ToLower (s : String) : String :=
  String.mk (s.data.map lowerRune)

/-- Go `zip.OpenReader`: open the file at the path and read it as an
archive, as `zip.NewReader` reads its bytes. -/
def OpenReader (env : Env) (name : String) : Except Err ZipReader :=
  match env.ReadFile name with
  | Except.error err => Except.error err
  | Except.ok byteValues => env.zipNewReader byteValues

/-- The function `NewReaderFromBytes`. -/
def NewReaderFromBytes (env : Env) (byteValues : List Nat) : Option Reader × Option Err :=
  match env.zipNewReader byteValues with
  | Except.error err => (none, some err)
  | Except.ok zipReader =>
    match (getFileReaders zipReader).2 with
    | some err => (none, some err)
    | none => (some ⟨"", false, false, (getFileReaders zipReader).1⟩, none)

/-- The function `NewReader`, with the effects before and after the call. -/
def NewReader (env : Env) (fx : Effects) (docxPath : String) :
    (Option Reader × Option Err) × Effects :=
  if ToLower (Ext docxPath) ≠ ".docx" then ((none, some Err.ErrNotSupportFormat), fx)
  else
    match OpenReader env docxPath with
    | Except.error err => ((none, some err), { fx with opened := fx.opened ++ [docxPath] })
    | Except.ok zipReadCloser =>
      match (getFileReaders zipReadCloser).2 with
      | some err => ((none, some err), { fx with opened := fx.opened ++ [docxPath] })
      | none =>
        ((some ⟨docxPath, false, true, (getFileReaders zipReadCloser).1⟩, none),
          { fx with opened := fx.opened ++ [docxPath] })

/-- The method `Reader.Close`.  `closeResult` is what closing a handle
returns, by the name of the handle; the method drops it. -/
def Close (_closeResult : String → Option Err) (fx : Effects) (r : Reader) :
    Option Err × Effects :=
  let fx1 : Effects := { fx with closed := fx.closed ++ r.fileReaders.map FileReader.fileName }
  let fx2 : Effects := if r.docx then { fx1 with closed := fx1.closed ++ [r.docxPath] } else fx1
  let fx3 : Effects := if r.fromDoc then { fx2 with removed := fx2.removed ++ [r.docxPath] } else fx2
  (none, fx3)

/-- The loop of `readSingleFile` run for at most `fuel` iterations: `none`
when the iterations are used up before the loop returns. -/
def readSingleFileFuel : Nat → String → Decoder → Option ((String × Option Err) × Decoder)
  | 0, _, _ => none
  | fuel + 1, content, decoder =>
    if (read decoder).1.2 = some Err.EOF then some ((content, none), (read decoder).2)
    else if (read decoder).1.2 ≠ none then some (("", (read decoder).1.2), (read decoder).2)
    else readSingleFileFuel fuel (content ++ (read decoder).1.1 ++ " ") (read decoder).2

/-- The events `seekText` passes over without returning. -/
def isPassedBySeekText : Token → Bool
  | Token.StartElement _ => true
  | Token.Comment _ => true
  | Token.ProcInst _ _ => true
  | Token.Directive _ => true
  | _ => false

/-- An archive with a header part, the body part and a style sheet. -/
def fixtureZip : ZipReader :=
  ⟨[⟨"word/header1.xml"⟩, ⟨"word/document.xml"⟩, ⟨"word/styles.xml"⟩],
    fun name =>
      if name = "word/document.xml" then
        Except.ok ⟨sampleParagraph "Title" ++ sampleParagraph "Subtitle", Err.EOF⟩
      else if name = "word/header1.xml" then Except.ok ⟨sampleParagraph "test header", Err.EOF⟩
      else Except.ok ⟨[], Err.EOF⟩⟩

/-- A file system with one document, `testdata/test.DOCX`, and a zip library
that reads its bytes as `fixtureZip`. -/
def fixtureEnv : Env :=
  ⟨fun name =>
      if name = "testdata/test.DOCX" then Except.ok [80, 75, 3, 4]
      else Except.error (Err.other "open: no such file or directory"),
    fun byteValues =>
      if byteValues = [80, 75, 3, 4] then Except.ok fixtureZip
      else Except.error (Err.other "zip: not a valid zip file")⟩

/-- The errors of the file system and of the zip library met on the way of
`NewReader` to the parts of the document at `docxPath` are theirs: none is
the `ErrNotSupportFormat` value, which only this package holds. -/
def foreignErrors (env : Env) (docxPath : String) : Prop :=
  env.ReadFile docxPath ≠ Except.error Err.ErrNotSupportFormat ∧
  ∀ byteValues, env.ReadFile docxPath = Except.ok byteValues →
    env.zipNewReader byteValues ≠ Except.error Err.ErrNotSupportFormat ∧
    ∀ zipReader, env.zipNewReader byteValues = Except.ok zipReader →
      ∀ name, zipReader.Open name ≠ Except.error Err.ErrNotSupportFormat

/-- The elements left open by the events, `stack` being the names open
before them, innermost first: a start pushes its name and an end pops the
innermost name, which must have its local name.  `none` when an end meets no
open element or one of another local name: there the decoder gives a syntax
error in place of the event. -/
def openElements : List Token → List Name → Option (List Name)
  | [], stack => some stack
  | Token.StartElement n :: rest, stack => openElements rest (n :: stack)
  | Token.EndElement n :: rest, stack =>
    match stack with
    | [] => none
    | top :: below => if n.Local = top.Local then openElements rest below else none
  | Token.CharData _ :: rest, stack => openElements rest stack
  | Token.Comment _ :: rest, stack => openElements rest stack
  | Token.ProcInst _ _ :: rest, stack => openElements rest stack
  | Token.Directive _ :: rest, stack => openElements rest stack

/-- What a decoder made by `xml.NewDecoder` gives: every end closes the
innermost open element, and the stream ends in `io.EOF` only when no element
is open; the end of the input inside an element is a syntax error. -/
def isXMLStream (decoder : Decoder) : Bool :=
  match openElements decoder.tokens [] with
  | none => false
  | some stack => !(decide (decoder.err = Err.EOF)) || stack.isEmpty

/-! ## How the scanner ends -/

theorem seekTextLoop_error (err : Err) (tokens : List Token) (e : Err) :
    (seekTextLoop err tokens).1.2 = some e →
      e = err ∧ (seekTextLoop err tokens).1.1 = "" ∧ (seekTextLoop err tokens).2 = [] := by
  induction tokens with
  | nil => intro h; simp [seekTextLoop] at h ⊢; exact h.symm
  | cons tok rest ih =>
    cases tok <;> simp only [seekTextLoop] <;> first | exact ih | (intro h; simp at h)

theorem seekNextTagLoop_error (err : Err) (tag : String) (tokens : List Token) (e : Err) :
    (seekNextTagLoop err tag tokens).1 = some e →
      e = err ∧ (seekNextTagLoop err tag tokens).2 = [] := by
  induction tokens with
  | nil => intro h; simp [seekNextTagLoop] at h ⊢; exact h.symm
  | cons tok rest ih =>
    cases tok with
    | StartElement n =>
      by_cases hn : n.Local = tag
      · simp [seekNextTagLoop, hn]
      · simpa [seekNextTagLoop, hn] using ih
    | _ => simpa [seekNextTagLoop] using ih

theorem seekParagraphLoop_error (err : Err) (e : Err) :
    ∀ (n : Nat) (tokens : List Token) (paragraph : String), tokens.length ≤ n →
      (seekParagraphLoop err paragraph tokens).1.2 = some e →
      e = err ∧ (seekParagraphLoop err paragraph tokens).1.1 = "" ∧
        (seekParagraphLoop err paragraph tokens).2 = [] := by
  intro n
  induction n with
  | zero =>
    intro tokens paragraph hlen
    have : tokens = [] := List.length_eq_zero.mp (Nat.le_zero.mp hlen)
    subst this
    intro h
    simp [seekParagraphLoop] at h ⊢
    exact h.symm
  | succ n ih =>
    intro tokens paragraph hlen
    cases tokens with
    | nil =>
      intro h
      simp [seekParagraphLoop] at h ⊢
      exact h.symm
    | cons tok rest =>
      have hrest : rest.length ≤ n := by simpa using hlen
      cases tok with
      | EndElement nm =>
        rw [seekParagraphLoop]
        by_cases hn : nm.Local = xmlParagraph
        · simp [hn]
        · simpa only [hn, if_false] using ih rest paragraph hrest
      | StartElement nm =>
        rw [seekParagraphLoop]
        by_cases hn : nm.Local = xmlTab
        · simp only [hn, if_true]
          have hl := seekTextLoop_length err rest
          cases hs : (seekTextLoop err rest).1.2 with
          | some e1 =>
            simp only
            intro h
            have := seekTextLoop_error err rest e1 hs
            simp only [Option.some.injEq] at h
            subst h
            exact ⟨this.1, trivial, this.2.2⟩
          | none =>
            simp only
            exact ih (seekTextLoop err rest).2 _ (le_trans hl hrest)
        · simpa only [hn, if_false] using ih rest paragraph hrest
      | _ =>
        rw [seekParagraphLoop]
        exact ih rest paragraph hrest

theorem read_err_field (decoder : Decoder) : (read decoder).2.err = decoder.err := by
  unfold read
  cases (seekNextTag decoder xmlParagraph).1 with
  | some e => simp [seekNextTag]
  | none =>
    cases (seekParagraph (seekNextTag decoder xmlParagraph).2).1.2 with
    | some e => simp [seekNextTag, seekParagraph]
    | none => simp [seekNextTag, seekParagraph]

theorem read_error (decoder : Decoder) (e : Err) :
    (read decoder).1.2 = some e →
      e = decoder.err ∧ (read decoder).1.1 = "" ∧ (read decoder).2 = ⟨[], decoder.err⟩ := by
  unfold read
  cases h1 : (seekNextTag decoder xmlParagraph).1 with
  | some e1 =>
    simp only
    intro h
    simp only [Option.some.injEq] at h
    subst h
    have := seekNextTagLoop_error decoder.err xmlParagraph decoder.tokens e1 h1
    refine ⟨this.1, trivial, ?_⟩
    simp [seekNextTag, this.2]
  | none =>
    cases h2 : (seekParagraph (seekNextTag decoder xmlParagraph).2).1.2 with
    | some e2 =>
      simp only
      intro h
      simp only [Option.some.injEq] at h
      subst h
      have := seekParagraphLoop_error decoder.err e2 _ _ "" (le_refl _) h2
      refine ⟨this.1, trivial, ?_⟩
      simp only [seekParagraph, seekNextTag] at this ⊢
      simp [this.2.2]
    | none => simp

/-- The loop of `readSingleFile` ends with the stream used up; it succeeds
with a text exactly when the stream ends in `io.EOF`, and gives the empty
string with the error of the stream otherwise. -/
theorem readSingleFileLoop_end :
    ∀ (n : Nat) (decoder : Decoder) (content : String), decoder.tokens.length ≤ n →
      (readSingleFileLoop content decoder).2 = ⟨[], decoder.err⟩ ∧
      (decoder.err = Err.EOF → (readSingleFileLoop content decoder).1.2 = none) ∧
      (decoder.err ≠ Err.EOF →
        (readSingleFileLoop content decoder).1 = ("", some decoder.err)) := by
  intro n
  induction n with
  | zero =>
    intro decoder content hlen
    rw [readSingleFileLoop]
    cases hr : (read decoder).1.2 with
    | none =>
      have := read_length decoder hr
      omega
    | some e =>
      obtain ⟨he, -, hd⟩ := read_error decoder e hr
      subst he
      by_cases hE : decoder.err = Err.EOF
      · simp [hE, hd]
      · simp [hE, hd]
  | succ n ih =>
    intro decoder content hlen
    rw [readSingleFileLoop]
    cases hr : (read decoder).1.2 with
    | none =>
      have hl := read_length decoder hr
      have := ih (read decoder).2 (content ++ (read decoder).1.1 ++ " ") (by omega)
      simp only [reduceCtorEq, if_false, ne_eq, not_true_eq_false, dite_false]
      rw [read_err_field] at this
      exact this
    | some e =>
      obtain ⟨he, -, hd⟩ := read_error decoder e hr
      subst he
      by_cases hE : decoder.err = Err.EOF
      · simp [hE, hd]
      · simp [hE, hd]

theorem readSingleFile_tokens (decoder : Decoder) :
    (readSingleFile decoder).2 = ⟨[], decoder.err⟩ :=
  (readSingleFileLoop_end _ decoder "" (le_refl _)).1

theorem readSingleFile_of_EOF (decoder : Decoder) (h : decoder.err = Err.EOF) :
    (readSingleFile decoder).1.2 = none :=
  (readSingleFileLoop_end _ decoder "" (le_refl _)).2.1 h

theorem readSingleFile_of_error (decoder : Decoder) (h : decoder.err ≠ Err.EOF) :
    (readSingleFile decoder).1 = ("", some decoder.err) :=
  (readSingleFileLoop_end _ decoder "" (le_refl _)).2.2 h

/-! ## Inside a paragraph -/

theorem seekParagraphLoop_other (err : Err) (paragraph : String) (tok : Token)
    (tail : List Token) (h1 : isStartOf xmlTab tok = false)
    (h2 : isEndOf xmlParagraph tok = false) :
    seekParagraphLoop err paragraph (tok :: tail) = seekParagraphLoop err paragraph tail := by
  cases tok with
  | StartElement n =>
    have hn : ¬ n.Local = xmlTab := by simpa [isStartOf] using h1
    rw [seekParagraphLoop]
    simp only [hn, if_false]
  | EndElement n =>
    have hn : ¬ n.Local = xmlParagraph := by simpa [isEndOf] using h2
    rw [seekParagraphLoop]
    simp only [hn, if_false]
  | _ => rw [seekParagraphLoop]

theorem seekParagraphLoop_skip (err : Err) (paragraph : String) (mid tail : List Token)
    (h : ∀ tok ∈ mid, isStartOf xmlTab tok = false ∧ isEndOf xmlParagraph tok = false) :
    seekParagraphLoop err paragraph (mid ++ tail) = seekParagraphLoop err paragraph tail := by
  induction mid with
  | nil => rfl
  | cons tok rest ih =>
    have hk := h tok (List.mem_cons_self _ _)
    rw [List.cons_append, seekParagraphLoop_other err paragraph tok _ hk.1 hk.2]
    exact ih (fun t ht => h t (List.mem_cons_of_mem _ ht))

theorem seekParagraphLoop_tab (err : Err) (paragraph space c : String) (tail : List Token) :
    seekParagraphLoop err paragraph
        (startOf space xmlTab :: Token.CharData c :: endOf space xmlTab :: tail) =
      seekParagraphLoop err (paragraph ++ c) tail := by
  have ht : ¬ xmlTab = xmlParagraph := by decide
  rw [startOf, seekParagraphLoop]
  simp only [if_true, seekTextLoop]
  rw [endOf, seekParagraphLoop]
  simp only [ht, if_false]

theorem seekParagraphLoop_emptyTab (err : Err) (paragraph space : String)
    (tail : List Token) :
    seekParagraphLoop err paragraph (startOf space xmlTab :: endOf space xmlTab :: tail) =
      seekParagraphLoop err paragraph tail := by
  rw [startOf, seekParagraphLoop]
  simp only [if_true, endOf, seekTextLoop, String.append_empty]

theorem seekParagraphLoop_close (err : Err) (paragraph space : String) (rest : List Token) :
    seekParagraphLoop err paragraph (endOf space xmlParagraph :: rest) =
      ((paragraph, none), rest) := by
  rw [endOf, seekParagraphLoop]
  simp only [if_true]

theorem seekParagraphLoop_body (err : Err) (body : List Piece) :
    body.all Piece.ok = true → ∀ (paragraph : String) (tail : List Token),
      seekParagraphLoop err paragraph (bodyEvents body ++ tail) =
        seekParagraphLoop err (paragraph ++ bodyText body) tail := by
  induction body with
  | nil =>
    intro _ paragraph tail
    simp [bodyEvents, bodyText]
  | cons piece rest ih =>
    intro h paragraph tail
    rw [List.all_cons, Bool.and_eq_true] at h
    cases piece with
    | tab space text =>
      cases text with
      | some c =>
        simp only [bodyEvents, bodyText, Piece.events, Piece.text, List.cons_append,
          List.nil_append]
        rw [seekParagraphLoop_tab, ih h.2, String.append_assoc]
      | none =>
        simp only [bodyEvents, bodyText, Piece.events, Piece.text, List.cons_append,
          List.nil_append, String.empty_append]
        rw [seekParagraphLoop_emptyTab, ih h.2]
    | other tok =>
      have hk : isStartOf xmlTab tok = false ∧ isEndOf xmlParagraph tok = false := by
        simpa [Piece.ok] using h.1
      simp only [bodyEvents, bodyText, Piece.events, Piece.text, List.cons_append,
        List.nil_append, String.empty_append]
      rw [seekParagraphLoop_other err paragraph tok _ hk.1 hk.2, ih h.2]

theorem seekParagraph_body (err : Err) (space : String) (body : List Piece)
    (rest : List Token) (h : body.all Piece.ok = true) :
    seekParagraph ⟨bodyEvents body ++ endOf space xmlParagraph :: rest, err⟩ =
      ((bodyText body, none), ⟨rest, err⟩) := by
  simp only [seekParagraph]
  rw [seekParagraphLoop_body err body h, seekParagraphLoop_close, String.empty_append]

/-- C3: positioned after a paragraph start, with the events up to the first end
of `p` made of complete tabs (and other events that are neither a start of `t`
nor an end of `p`), `seekParagraph` returns the character data of the tabs
joined in encounter order with nothing between them, and stops right after
that end of `p`. -/
theorem seekParagraph_concatenates_tabs (err : Err) (space : String) (body : List Piece)
    (rest : List Token) (h : body.all Piece.ok = true) :
    (seekParagraph ⟨bodyEvents body ++ endOf space xmlParagraph :: rest, err⟩).1 =
        (bodyText body, none) ∧
      (seekParagraph ⟨bodyEvents body ++ endOf space xmlParagraph :: rest, err⟩).2.tokens =
        rest := by
  rw [seekParagraph_body err space body rest h]
  exact ⟨rfl, rfl⟩

theorem seekParagraph_concatenates_tabs_witness :
    [Piece.tab "w" (some "Here is "), Piece.other (endOf "w" "r"),
        Piece.other (startOf "w" "r"), Piece.tab "w" (some "a first row.")].all Piece.ok = true ∧
      (seekParagraph ⟨[startOf "w" "t", Token.CharData "Here is ", endOf "w" "t",
          endOf "w" "r", startOf "w" "r", startOf "w" "t", Token.CharData "a first row.",
          endOf "w" "t", endOf "w" "p", endOf "w" "body"], Err.EOF⟩).1 =
        ("Here is a first row.", none) := by
  refine ⟨by decide, ?_⟩
  exact (seekParagraph_concatenates_tabs Err.EOF "w"
    [Piece.tab "w" (some "Here is "), Piece.other (endOf "w" "r"),
      Piece.other (startOf "w" "r"), Piece.tab "w" (some "a first row.")]
    [endOf "w" "body"] (by decide)).1

/-- C4: an empty tab contributes nothing: putting the two events of an empty
tab between two pieces of a paragraph made of complete tabs (or before the
first, or after the last) changes neither the text `seekParagraph` returns nor
the end of `p` at which it stops. -/
theorem seekParagraph_empty_tab_neutral (err : Err) (space tabSpace : String)
    (before after : List Piece) (rest : List Token)
    (h1 : before.all Piece.ok = true) (h2 : after.all Piece.ok = true) :
    seekParagraph ⟨bodyEvents before ++ (startOf tabSpace xmlTab :: endOf tabSpace xmlTab ::
        (bodyEvents after ++ endOf space xmlParagraph :: rest)), err⟩ =
      seekParagraph ⟨bodyEvents before ++ (bodyEvents after ++
        endOf space xmlParagraph :: rest), err⟩ ∧
    seekParagraph ⟨bodyEvents before ++ (startOf tabSpace xmlTab :: endOf tabSpace xmlTab ::
        (bodyEvents after ++ endOf space xmlParagraph :: rest)), err⟩ =
      ((bodyText before ++ bodyText after, none), ⟨rest, err⟩) := by
  have key : ∀ tail : List Token, seekParagraphLoop err "" (bodyEvents before ++ tail) =
      seekParagraphLoop err (bodyText before) tail := by
    intro tail
    rw [seekParagraphLoop_body err before h1, String.empty_append]
  simp only [seekParagraph]
  rw [key, key, seekParagraphLoop_emptyTab, seekParagraphLoop_body err after h2,
    seekParagraphLoop_close]
  exact ⟨rfl, rfl⟩

theorem seekParagraph_empty_tab_neutral_witness :
    [Piece.tab "" (some "a")].all Piece.ok = true ∧
      [Piece.tab "" (some "b")].all Piece.ok = true ∧
      seekParagraph ⟨[startOf "" "t", Token.CharData "a", endOf "" "t", startOf "" "t",
          endOf "" "t", startOf "" "t", Token.CharData "b", endOf "" "t", endOf "" "p",
          Token.CharData "z"], Err.EOF⟩ =
        (("ab", none), ⟨[Token.CharData "z"], Err.EOF⟩) :=
  ⟨by decide, by decide,
    (seekParagraph_empty_tab_neutral Err.EOF "" "" [Piece.tab "" (some "a")]
      [Piece.tab "" (some "b")] [Token.CharData "z"] (by decide) (by decide)).2⟩

/-- C9: only the first character data of a tab is captured: on
`[start t, CharData a] ++ mid ++ [CharData b, end t, end p]`, where `mid` has no
start of `t` and no end of `p`, `seekParagraph` returns `a`; and `seekText`,
meeting a `CharData`, returns its payload and reads no further event. -/
theorem seekParagraph_first_chardata_only (err : Err) (space : String) (a b : String)
    (mid rest more : List Token)
    (h : ∀ tok ∈ mid, isStartOf xmlTab tok = false ∧ isEndOf xmlParagraph tok = false) :
    seekParagraph ⟨[startOf space xmlTab, Token.CharData a] ++ mid ++
        [Token.CharData b, endOf space xmlTab, endOf space xmlParagraph] ++ rest, err⟩ =
      ((a, none), ⟨rest, err⟩) ∧
    seekText ⟨Token.CharData a :: more, err⟩ = ((a, none), ⟨more, err⟩) := by
  constructor
  · have ht : ¬ xmlTab = xmlParagraph := by decide
    simp only [seekParagraph, List.cons_append, List.nil_append, List.append_assoc]
    rw [startOf, seekParagraphLoop]
    simp only [if_true, seekTextLoop, String.empty_append]
    rw [seekParagraphLoop_skip err a mid _ h]
    rw [seekParagraphLoop, endOf, seekParagraphLoop]
    simp only [ht, if_false]
    rw [seekParagraphLoop_close]
  · simp [seekText, seekTextLoop]

theorem seekParagraph_first_chardata_only_witness :
    (∀ tok ∈ [startOf "" "b", endOf "" "b"],
        isStartOf xmlTab tok = false ∧ isEndOf xmlParagraph tok = false) ∧
      seekParagraph ⟨[startOf "" xmlTab, Token.CharData "kept"] ++
          [startOf "" "b", endOf "" "b"] ++
          [Token.CharData "lost", endOf "" xmlTab, endOf "" xmlParagraph] ++ [], Err.EOF⟩ =
        (("kept", none), ⟨[], Err.EOF⟩) :=
  ⟨by decide,
    (seekParagraph_first_chardata_only Err.EOF "" "kept" "lost"
      [startOf "" "b", endOf "" "b"] [] [] (by decide)).1⟩

/-! ## From paragraph to paragraph -/

theorem seekNextTagLoop_skip (err : Err) (tag : String) (fill tail : List Token)
    (h : fill.all (fun tok => !isStartOf tag tok) = true) :
    seekNextTagLoop err tag (fill ++ tail) = seekNextTagLoop err tag tail := by
  induction fill with
  | nil => rfl
  | cons tok rest ih =>
    rw [List.all_cons, Bool.and_eq_true] at h
    cases tok with
    | StartElement n =>
      have hn : n.Local ≠ tag := by simpa [isStartOf] using h.1
      simp only [List.cons_append, seekNextTagLoop, hn, ne_eq, not_false_eq_true, if_true]
      exact ih h.2
    | _ =>
      simp only [List.cons_append, seekNextTagLoop]
      exact ih h.2

theorem seekNextTagLoop_none (err : Err) (tag : String) (fill : List Token)
    (h : fill.all (fun tok => !isStartOf tag tok) = true) :
    seekNextTagLoop err tag fill = (some err, []) := by
  have := seekNextTagLoop_skip err tag fill [] h
  rw [List.append_nil] at this
  rw [this, seekNextTagLoop]

theorem seekNextTagLoop_hit (err : Err) (space tag : String) (tail : List Token) :
    seekNextTagLoop err tag (startOf space tag :: tail) = (none, tail) := by
  simp [startOf, seekNextTagLoop]

theorem read_para (err : Err) (para : Para) (tail : List Token) (h : para.ok = true) :
    read ⟨para.events ++ tail, err⟩ = ((bodyText para.body, none), ⟨tail, err⟩) := by
  rw [Para.ok, Bool.and_eq_true] at h
  have e1 : seekNextTag ⟨para.events ++ tail, err⟩ xmlParagraph =
      (none, ⟨bodyEvents para.body ++ endOf para.space xmlParagraph :: tail, err⟩) := by
    simp only [seekNextTag, Para.events, List.append_assoc, List.cons_append,
      List.nil_append]
    rw [seekNextTagLoop_skip err xmlParagraph _ _ h.1, seekNextTagLoop_hit]
  have e2 := seekParagraph_body err para.space para.body tail h.2
  simp only [read, e1, e2]

theorem read_none (err : Err) (fill : List Token)
    (h : fill.all (fun tok => !isStartOf xmlParagraph tok) = true) :
    read ⟨fill, err⟩ = (("", some err), ⟨[], err⟩) := by
  simp only [read, seekNextTag, seekNextTagLoop_none err xmlParagraph fill h]

theorem readSingleFileLoop_doc (err : Err) (paras : List Para) :
    paras.all Para.ok = true → ∀ (content : String) (tail : List Token),
      readSingleFileLoop content ⟨docEvents paras ++ tail, err⟩ =
        readSingleFileLoop (content ++ docText paras) ⟨tail, err⟩ := by
  induction paras with
  | nil =>
    intro _ content tail
    simp [docEvents, docText]
  | cons para rest ih =>
    intro h content tail
    rw [List.all_cons, Bool.and_eq_true] at h
    rw [readSingleFileLoop]
    simp only [docEvents, docText, List.append_assoc]
    rw [read_para err para _ h.1]
    simp only [reduceCtorEq, if_false, ne_eq, not_true_eq_false, dite_false]
    rw [ih h.2, String.append_assoc, String.append_assoc, String.append_assoc]

theorem readSingleFileLoop_tail (content : String) (fill : List Token)
    (h : fill.all (fun tok => !isStartOf xmlParagraph tok) = true) :
    readSingleFileLoop content ⟨fill, Err.EOF⟩ = ((content, none), ⟨[], Err.EOF⟩) := by
  rw [readSingleFileLoop, read_none Err.EOF fill h]
  simp

/-- C2: on a stream made of `n` closed paragraphs whose tabs are complete, with
events that hold no start of `p` before, between and after them, and ending in
`io.EOF`, `readSingleFile` succeeds, reads the stream to its end and returns the
paragraph texts in document order, each followed by one space (the empty
string for `n = 0`). -/
theorem readSingleFile_joins_paragraphs (paras : List Para) (after : List Token)
    (hp : paras.all Para.ok = true)
    (ha : after.all (fun tok => !isStartOf xmlParagraph tok) = true) :
    readSingleFile ⟨docEvents paras ++ after, Err.EOF⟩ =
      ((docText paras, none), ⟨[], Err.EOF⟩) := by
  rw [readSingleFile, readSingleFileLoop_doc Err.EOF paras hp,
    readSingleFileLoop_tail _ after ha, String.empty_append]

theorem readSingleFile_joins_paragraphs_witness :
    [Para.mk [startOf "w" "body"] "w" [Piece.tab "w" (some "Title")],
        Para.mk [Token.CharData "\n"] "w"
          [Piece.tab "w" (some "Sub"), Piece.tab "w" none, Piece.tab "w" (some "title")]].all
        Para.ok = true ∧
      [endOf "w" "body"].all (fun tok => !isStartOf xmlParagraph tok) = true ∧
      readSingleFile ⟨[startOf "w" "body", startOf "w" "p", startOf "w" "t",
          Token.CharData "Title", endOf "w" "t", endOf "w" "p", Token.CharData "\n",
          startOf "w" "p", startOf "w" "t", Token.CharData "Sub", endOf "w" "t",
          startOf "w" "t", endOf "w" "t", startOf "w" "t", Token.CharData "title",
          endOf "w" "t", endOf "w" "p", endOf "w" "body"], Err.EOF⟩ =
        (("Title Subtitle ", none), ⟨[], Err.EOF⟩) :=
  ⟨by decide, by decide,
    readSingleFile_joins_paragraphs
      [Para.mk [startOf "w" "body"] "w" [Piece.tab "w" (some "Title")],
        Para.mk [Token.CharData "\n"] "w"
          [Piece.tab "w" (some "Sub"), Piece.tab "w" none, Piece.tab "w" (some "title")]]
      [endOf "w" "body"] (by decide) (by decide)⟩

/-! ## The four sections -/

theorem sectionText_cons (sec : Section) (fileReader : FileReader) (rest : List FileReader) :
    sectionText sec (fileReader :: rest) =
      if sectionOf fileReader.fileName = sec then
        (readSingleFile fileReader.decoder).1.1 ++ sectionText sec rest
      else sectionText sec rest := by
  by_cases h : sectionOf fileReader.fileName = sec
  · simp [sectionText, List.filter_cons, h, joinAll]
  · simp [sectionText, List.filter_cons, h]

theorem ReadAllFilesLoop_ok (fileReaders : List FileReader) :
    (∀ fileReader ∈ fileReaders, (readSingleFile fileReader.decoder).1.2 = none) →
    ∀ (header footer footnotes content : String),
      (ReadAllFilesLoop header footer footnotes content fileReaders).1 =
        ⟨trimmedString (header ++ sectionText Section.Header fileReaders),
          trimmedString (content ++ sectionText Section.Content fileReaders),
          trimmedString (footer ++ sectionText Section.Footer fileReaders),
          trimmedString (footnotes ++ sectionText Section.Footnotes fileReaders), none⟩ := by
  induction fileReaders with
  | nil =>
    intro _ header footer footnotes content
    simp [ReadAllFilesLoop, sectionText, joinAll]
  | cons fileReader rest ih =>
    intro h header footer footnotes content
    have h0 := h fileReader (List.mem_cons_self _ _)
    have hrest := ih (fun x hx => h x (List.mem_cons_of_mem _ hx))
    simp only [ReadAllFilesLoop, h0, sectionText_cons]
    by_cases c1 : Contains fileReader.fileName "header" = true
    · simp [sectionOf, c1, hrest, String.append_assoc]
    · by_cases c2 : Contains fileReader.fileName "footer" = true
      · simp [sectionOf, c1, c2, hrest, String.append_assoc]
      · by_cases c3 : Contains fileReader.fileName "footnotes" = true
        · simp [sectionOf, c1, c2, c3, hrest, String.append_assoc]
        · simp [sectionOf, c1, c2, c3, hrest, String.append_assoc]

theorem ReadAllFilesLoop_fail (pre : List FileReader) (fileReader : FileReader)
    (post : List FileReader) (e : Err)
    (hfail : (readSingleFile fileReader.decoder).1.2 = some e) :
    (∀ x ∈ pre, (readSingleFile x.decoder).1.2 = none) →
    ∀ (header footer footnotes content : String),
      (ReadAllFilesLoop header footer footnotes content (pre ++ fileReader :: post)).1 =
        ⟨"", "", "", "", some e⟩ := by
  induction pre with
  | nil =>
    intro _ header footer footnotes content
    simp [ReadAllFilesLoop, hfail]
  | cons x rest ih =>
    intro h header footer footnotes content
    have h0 := h x (List.mem_cons_self _ _)
    have hrest := ih (fun y hy => h y (List.mem_cons_of_mem _ hy))
    simp only [List.cons_append, ReadAllFilesLoop, h0]
    split_ifs <;> exact hrest _ _ _ _

theorem ReadAllFilesLoop_err_source (fileReaders : List FileReader) (e : Err) :
    ∀ (header footer footnotes content : String),
      (ReadAllFilesLoop header footer footnotes content fileReaders).1.err = some e →
      ∃ fileReader ∈ fileReaders, (readSingleFile fileReader.decoder).1.2 = some e := by
  induction fileReaders with
  | nil =>
    intro header footer footnotes content h
    simp [ReadAllFilesLoop] at h
  | cons x rest ih =>
    intro header footer footnotes content
    cases h0 : (readSingleFile x.decoder).1.2 with
    | some e0 =>
      simp only [ReadAllFilesLoop, h0]
      intro h
      exact ⟨x, List.mem_cons_self _ _, by rw [h0]; exact h⟩
    | none =>
      simp only [ReadAllFilesLoop, h0]
      intro h
      have key : ∃ fileReader ∈ rest, (readSingleFile fileReader.decoder).1.2 = some e := by
        split_ifs at h <;> exact ih _ _ _ _ h
      obtain ⟨y, hy, hy2⟩ := key
      exact ⟨y, List.mem_cons_of_mem _ hy, hy2⟩

theorem readSingleFile_ne_EOF (decoder : Decoder) :
    (readSingleFile decoder).1.2 ≠ some Err.EOF := by
  by_cases h : decoder.err = Err.EOF
  · rw [readSingleFile_of_EOF decoder h]
    simp
  · rw [readSingleFile_of_error decoder h]
    simpa using h

theorem readSingleFile_ok_iff (decoder : Decoder) :
    (readSingleFile decoder).1.2 = none ↔ decoder.err = Err.EOF := by
  constructor
  · intro h
    by_contra hne
    rw [readSingleFile_of_error decoder hne] at h
    simp at h
  · exact readSingleFile_of_EOF decoder

/-- C1: when every part scans successfully, each of the four strings of
`ReadAllFiles` is `strings.TrimSpace` of the `readSingleFile` texts of exactly
the parts classified into that section, joined in the order of `r.fileReaders`
with no separator; the error is nil. -/
theorem ReadAllFiles_trimmed_sections (r : Reader)
    (h : ∀ fileReader ∈ r.fileReaders, (readSingleFile fileReader.decoder).1.2 = none) :
    (ReadAllFiles r).1 =
      ⟨TrimSpace (sectionText Section.Header r.fileReaders),
        TrimSpace (sectionText Section.Content r.fileReaders),
        TrimSpace (sectionText Section.Footer r.fileReaders),
        TrimSpace (sectionText Section.Footnotes r.fileReaders), none⟩ := by
  simp only [ReadAllFiles, ReadAllFilesLoop_ok r.fileReaders h, trimmedString,
    String.empty_append]

theorem ReadAllFiles_trimmed_sections_witness :
    (∀ fileReader ∈ sampleReader.fileReaders,
        (readSingleFile fileReader.decoder).1.2 = none) ∧
      (ReadAllFiles sampleReader).1 =
        ⟨"test header", "Title Subtitle", "test footer", "", none⟩ := by
  have hall : ∀ fileReader ∈ sampleReader.fileReaders,
      (readSingleFile fileReader.decoder).1.2 = none := by
    intro fileReader hfr
    apply readSingleFile_of_EOF
    simp only [sampleReader, List.mem_cons, List.mem_singleton, List.not_mem_nil,
      or_false] at hfr
    rcases hfr with rfl | rfl | rfl <;> rfl
  refine ⟨hall, ?_⟩
  rw [ReadAllFiles_trimmed_sections sampleReader hall]
  have c1 : Contains "word/document.xml" "header" = false := by decide
  have c2 : Contains "word/document.xml" "footer" = false := by decide
  have c3 : Contains "word/document.xml" "footnotes" = false := by decide
  have c4 : Contains "word/footer1.xml" "header" = false := by decide
  have c5 : Contains "word/footer1.xml" "footer" = true := by decide
  have c6 : Contains "word/header1.xml" "header" = true := by decide
  simp [sampleReader, sectionText, sectionOf, c1, c2, c3, c4, c5, c6, joinAll,
    sampleParagraph, readSingleFile, readSingleFileLoop, read, seekNextTag, seekParagraph,
    seekNextTagLoop, seekParagraphLoop, seekTextLoop, startOf, endOf, xmlTab, xmlParagraph]
  decide

/-! ## End of stream and errors -/

theorem seekTextLoop_all (err : Err) (q : Token → Bool) (tokens : List Token) :
    tokens.all q = true → (seekTextLoop err tokens).2.all q = true := by
  induction tokens with
  | nil => intro _; simp [seekTextLoop]
  | cons tok rest ih =>
    intro h
    rw [List.all_cons, Bool.and_eq_true] at h
    cases tok <;> simp only [seekTextLoop] <;> first | exact ih h.2 | exact h.2

theorem seekParagraphLoop_unclosed (err : Err) :
    ∀ (n : Nat) (tokens : List Token) (paragraph : String), tokens.length ≤ n →
      tokens.all (fun tok => !isEndOf xmlParagraph tok) = true →
      (seekParagraphLoop err paragraph tokens).1.2 = some err := by
  intro n
  induction n with
  | zero =>
    intro tokens paragraph hlen _
    have : tokens = [] := List.length_eq_zero.mp (Nat.le_zero.mp hlen)
    subst this
    simp [seekParagraphLoop]
  | succ n ih =>
    intro tokens paragraph hlen hall
    cases tokens with
    | nil => simp [seekParagraphLoop]
    | cons tok rest =>
      have hrest : rest.length ≤ n := by simpa using hlen
      rw [List.all_cons, Bool.and_eq_true] at hall
      cases tok with
      | EndElement nm =>
        have hn : ¬ nm.Local = xmlParagraph := by simpa [isEndOf] using hall.1
        rw [seekParagraphLoop]
        simp only [hn, if_false]
        exact ih rest paragraph hrest hall.2
      | StartElement nm =>
        rw [seekParagraphLoop]
        by_cases hn : nm.Local = xmlTab
        · simp only [hn, if_true]
          have hl := seekTextLoop_length err rest
          cases hs : (seekTextLoop err rest).1.2 with
          | some e1 =>
            simp only
            rw [(seekTextLoop_error err rest e1 hs).1]
          | none =>
            simp only
            exact ih (seekTextLoop err rest).2 _ (le_trans hl hrest)
              (seekTextLoop_all err _ rest hall.2)
        · simp only [hn, if_false]
          exact ih rest paragraph hrest hall.2
      | _ =>
        rw [seekParagraphLoop]
        exact ih rest paragraph hrest hall.2

theorem read_unclosed (err : Err) (fill : List Token) (space : String)
    (unclosed : List Token)
    (hf : fill.all (fun tok => !isStartOf xmlParagraph tok) = true)
    (hu : unclosed.all (fun tok => !isEndOf xmlParagraph tok) = true) :
    read ⟨fill ++ startOf space xmlParagraph :: unclosed, err⟩ =
      (("", some err), ⟨[], err⟩) := by
  have e1 : seekNextTag ⟨fill ++ startOf space xmlParagraph :: unclosed, err⟩ xmlParagraph =
      (none, ⟨unclosed, err⟩) := by
    simp only [seekNextTag]
    rw [seekNextTagLoop_skip err xmlParagraph _ _ hf, seekNextTagLoop_hit]
  have e2 : (seekParagraph ⟨unclosed, err⟩).1.2 = some err :=
    seekParagraphLoop_unclosed err _ unclosed "" (le_refl _) hu
  have hr : (read ⟨fill ++ startOf space xmlParagraph :: unclosed, err⟩).1.2 = some err := by
    simp only [read, e1, e2]
  obtain ⟨-, h1, h2⟩ := read_error _ err hr
  exact Prod.ext (Prod.ext h1 hr) h2

theorem ReadAllFilesLoop_err_of_fail (fileReaders : List FileReader) :
    (∃ x ∈ fileReaders, (readSingleFile x.decoder).1.2 ≠ none) →
    ∀ (header footer footnotes content : String),
      (ReadAllFilesLoop header footer footnotes content fileReaders).1.err ≠ none := by
  induction fileReaders with
  | nil =>
    rintro ⟨x, hx, -⟩
    simp at hx
  | cons a l ih =>
    rintro ⟨x, hx, hx2⟩ header footer footnotes content
    cases h0 : (readSingleFile a.decoder).1.2 with
    | some e0 => simp [ReadAllFilesLoop, h0]
    | none =>
      have hxl : x ∈ l := by
        rcases List.mem_cons.mp hx with rfl | h2
        · exact absurd h0 hx2
        · exact h2
      simp only [ReadAllFilesLoop, h0]
      split_ifs <;> exact ih ⟨x, hxl, hx2⟩ _ _ _ _

theorem ReadAllFiles_err_iff (r : Reader) :
    (ReadAllFiles r).1.err ≠ none ↔
      ∃ fileReader ∈ r.fileReaders, fileReader.decoder.err ≠ Err.EOF := by
  constructor
  · intro h
    cases he : (ReadAllFiles r).1.err with
    | none => exact absurd he h
    | some e =>
      obtain ⟨x, hx, hx2⟩ := ReadAllFilesLoop_err_source r.fileReaders e _ _ _ _ he
      refine ⟨x, hx, ?_⟩
      intro hE
      rw [readSingleFile_of_EOF x.decoder hE] at hx2
      simp at hx2
  · rintro ⟨x, hx, hx2⟩
    apply ReadAllFilesLoop_err_of_fail r.fileReaders
    refine ⟨x, hx, ?_⟩
    rw [Ne, readSingleFile_ok_iff]
    exact hx2

theorem openElements_append (pre rest : List Token) :
    ∀ stack : List Name, openElements (pre ++ rest) stack =
      (openElements pre stack).bind (fun mid => openElements rest mid) := by
  induction pre with
  | nil =>
    intro stack
    simp [openElements]
  | cons tok more ih =>
    intro stack
    cases tok with
    | EndElement n =>
      cases stack with
      | nil => simp [openElements]
      | cons top below =>
        by_cases hn : n.Local = top.Local
        · simp [openElements, hn, ih]
        · simp [openElements, hn]
    | _ => simp [openElements, ih]

theorem openElements_keeps_paragraph (tokens : List Token) :
    tokens.all (fun tok => !isEndOf xmlParagraph tok) = true →
    ∀ stack out : List Name, (∃ m ∈ stack, m.Local = xmlParagraph) →
      openElements tokens stack = some out → ∃ m ∈ out, m.Local = xmlParagraph := by
  induction tokens with
  | nil =>
    intro _ stack out hm h
    simp only [openElements, Option.some.injEq] at h
    rw [← h]
    exact hm
  | cons tok rest ih =>
    intro hall stack out hm
    rw [List.all_cons, Bool.and_eq_true] at hall
    cases tok with
    | StartElement n =>
      simp only [openElements]
      obtain ⟨m, hmem, hloc⟩ := hm
      exact ih hall.2 (n :: stack) out ⟨m, List.mem_cons_of_mem _ hmem, hloc⟩
    | EndElement n =>
      have hn : ¬ n.Local = xmlParagraph := by simpa [isEndOf] using hall.1
      cases stack with
      | nil =>
        obtain ⟨m, hmem, -⟩ := hm
        simp at hmem
      | cons top below =>
        simp only [openElements]
        by_cases ht : n.Local = top.Local
        · simp only [ht, if_true]
          obtain ⟨m, hmem, hloc⟩ := hm
          have hbelow : m ∈ below := by
            rcases List.mem_cons.mp hmem with rfl | h2
            · exact absurd (ht.trans hloc) hn
            · exact h2
          exact ih hall.2 below out ⟨m, hbelow, hloc⟩
        · simp [ht]
    | _ =>
      simp only [openElements]
      exact ih hall.2 stack out hm

theorem isXMLStream_unclosed (decoder : Decoder) (pre : List Token) (n : Name)
    (unclosed : List Token) (hxml : isXMLStream decoder = true)
    (hsplit : decoder.tokens = pre ++ Token.StartElement n :: unclosed)
    (hn : n.Local = xmlParagraph)
    (hu : unclosed.all (fun tok => !isEndOf xmlParagraph tok) = true) :
    decoder.err ≠ Err.EOF := by
  intro hE
  unfold isXMLStream at hxml
  cases hopen : openElements decoder.tokens [] with
  | none => simp [hopen] at hxml
  | some out =>
    have hempty : out = [] := by simpa [hopen, hE] using hxml
    rw [hsplit, openElements_append] at hopen
    cases hpre : openElements pre [] with
    | none => simp [hpre] at hopen
    | some mid =>
      simp only [hpre, Option.some_bind, openElements] at hopen
      obtain ⟨m, hmem, -⟩ := openElements_keeps_paragraph unclosed hu (n :: mid) out
        ⟨n, List.mem_cons_self _ _, hn⟩ hopen
      rw [hempty] at hmem
      simp at hmem

/-- C5: the end of the input inside a paragraph is fatal.  For every stream a
decoder of `xml.NewDecoder` gives that ends after a start of `p` with no end
of `p` behind it, the end of the stream is an error other than `io.EOF`,
`readSingleFile` returns the empty string with that error instead of a text,
and `ReadAllFiles` on a reader holding the part returns an error.  The clean
finish is the end of a stream while the next start of `p` is sought: closed
paragraphs followed by `io.EOF` give a nil error. -/
theorem readSingleFile_unclosed_paragraph_fails (decoder : Decoder) (pre : List Token)
    (n : Name) (unclosed : List Token) (name : String) (r : Reader)
    (paras : List Para) (after : List Token)
    (hxml : isXMLStream decoder = true)
    (hsplit : decoder.tokens = pre ++ Token.StartElement n :: unclosed)
    (hn : n.Local = xmlParagraph)
    (hu : unclosed.all (fun tok => !isEndOf xmlParagraph tok) = true)
    (hr : ⟨name, decoder⟩ ∈ r.fileReaders)
    (hp : paras.all Para.ok = true)
    (ha : after.all (fun tok => !isStartOf xmlParagraph tok) = true) :
    decoder.err ≠ Err.EOF ∧
    (readSingleFile decoder).1 = ("", some decoder.err) ∧
    (ReadAllFiles r).1.err ≠ none ∧
    (readSingleFile ⟨docEvents paras ++ after, Err.EOF⟩).1 = (docText paras, none) := by
  have herr := isXMLStream_unclosed decoder pre n unclosed hxml hsplit hn hu
  refine ⟨herr, readSingleFile_of_error decoder herr, ?_, ?_⟩
  · exact (ReadAllFiles_err_iff r).mpr ⟨⟨name, decoder⟩, hr, herr⟩
  · rw [readSingleFile, readSingleFileLoop_doc Err.EOF paras hp,
      readSingleFileLoop_tail _ after ha, String.empty_append]

theorem readSingleFile_unclosed_paragraph_fails_witness :
    (isXMLStream unclosedStream = true ∧
      unclosedStream.tokens =
        [startOf "w" "p", startOf "w" "t", Token.CharData "a", endOf "w" "t",
            endOf "w" "p"] ++
          Token.StartElement ⟨"w", "p"⟩ ::
            [startOf "w" "t", Token.CharData "b", endOf "w" "t"] ∧
      (⟨"w", "p"⟩ : Name).Local = xmlParagraph ∧
      [startOf "w" "t", Token.CharData "b", endOf "w" "t"].all
        (fun tok => !isEndOf xmlParagraph tok) = true ∧
      (⟨"word/document.xml", unclosedStream⟩ : FileReader) ∈
        (⟨"a.docx", false, true, [⟨"word/document.xml", unclosedStream⟩]⟩ : Reader).fileReaders ∧
      [Para.mk [] "w" [Piece.tab "w" (some "a")]].all Para.ok = true ∧
      ([] : List Token).all (fun tok => !isStartOf xmlParagraph tok) = true) ∧
    (readSingleFile unclosedStream).1 =
      ("", some (Err.other "XML syntax error on line 1: unexpected EOF")) ∧
    (ReadAllFiles ⟨"a.docx", false, true,
      [⟨"word/document.xml", unclosedStream⟩]⟩).1.err ≠ none :=
  ⟨⟨by decide, rfl, rfl, by decide, List.mem_singleton.mpr rfl, by decide, by decide⟩,
    (readSingleFile_unclosed_paragraph_fails unclosedStream
      [startOf "w" "p", startOf "w" "t", Token.CharData "a", endOf "w" "t", endOf "w" "p"]
      ⟨"w", "p"⟩ [startOf "w" "t", Token.CharData "b", endOf "w" "t"] "word/document.xml"
      ⟨"a.docx", false, true, [⟨"word/document.xml", unclosedStream⟩]⟩
      [Para.mk [] "w" [Piece.tab "w" (some "a")]] [] (by decide) rfl rfl (by decide)
      (List.mem_singleton.mpr rfl) (by decide) (by decide)).2.1,
    (readSingleFile_unclosed_paragraph_fails unclosedStream
      [startOf "w" "p", startOf "w" "t", Token.CharData "a", endOf "w" "t", endOf "w" "p"]
      ⟨"w", "p"⟩ [startOf "w" "t", Token.CharData "b", endOf "w" "t"] "word/document.xml"
      ⟨"a.docx", false, true, [⟨"word/document.xml", unclosedStream⟩]⟩
      [Para.mk [] "w" [Piece.tab "w" (some "a")]] [] (by decide) rfl rfl (by decide)
      (List.mem_singleton.mpr rfl) (by decide) (by decide)).2.2.1⟩

/-- C6: the error `ReadAllFiles` returns is never `io.EOF`: `readSingleFile`
never returns `io.EOF`, and on a stream that ends in `io.EOF` it returns a nil
error. -/
theorem ReadAllFiles_never_EOF (r : Reader) (decoder : Decoder) :
    (ReadAllFiles r).1.err ≠ some Err.EOF ∧
      (readSingleFile decoder).1.2 ≠ some Err.EOF ∧
      (readSingleFile ⟨decoder.tokens, Err.EOF⟩).1.2 = none := by
  refine ⟨?_, readSingleFile_ne_EOF decoder, readSingleFile_of_EOF _ rfl⟩
  intro h
  obtain ⟨x, -, hx⟩ := ReadAllFilesLoop_err_source r.fileReaders Err.EOF _ _ _ _ h
  exact readSingleFile_ne_EOF x.decoder hx

/-- C7: no partial results on failure.  A part whose scan fails with an error
other than `io.EOF` makes `readSingleFile` return the empty string with that
error; `ReadAllFiles` then returns that same error (of the first such part)
with four empty strings, whatever the parts before it produced; and
`ReadAllFiles` returns a non-nil error exactly when some part fails this
way. -/
theorem ReadAllFiles_no_partial_results (r : Reader) (pre : List FileReader)
    (fileReader : FileReader) (post : List FileReader)
    (hr : r.fileReaders = pre ++ fileReader :: post)
    (hpre : ∀ x ∈ pre, x.decoder.err = Err.EOF)
    (hfail : fileReader.decoder.err ≠ Err.EOF) :
    (readSingleFile fileReader.decoder).1 = ("", some fileReader.decoder.err) ∧
      (ReadAllFiles r).1 = ⟨"", "", "", "", some fileReader.decoder.err⟩ ∧
      ∀ r2 : Reader, ((ReadAllFiles r2).1.err ≠ none ↔
        ∃ x ∈ r2.fileReaders, x.decoder.err ≠ Err.EOF) := by
  have e1 := readSingleFile_of_error fileReader.decoder hfail
  refine ⟨e1, ?_, ReadAllFiles_err_iff⟩
  simp only [ReadAllFiles, hr]
  apply ReadAllFilesLoop_fail
  · rw [e1]
  · intro x hx
    exact readSingleFile_of_EOF x.decoder (hpre x hx)

theorem ReadAllFiles_no_partial_results_witness :
    ((∀ x ∈ [(⟨"word/document.xml", ⟨sampleParagraph "Title", Err.EOF⟩⟩ : FileReader)],
        x.decoder.err = Err.EOF) ∧
      Err.other "XML syntax error" ≠ Err.EOF) ∧
    (readSingleFile ⟨sampleParagraph "kept" ++ [startOf "w" "p"],
        Err.other "XML syntax error"⟩).1 = ("", some (Err.other "XML syntax error")) ∧
    (ReadAllFiles failingReader).1 = ⟨"", "", "", "", some (Err.other "XML syntax error")⟩ :=
  ⟨⟨by simp, by decide⟩,
    (ReadAllFiles_no_partial_results failingReader
      [⟨"word/document.xml", ⟨sampleParagraph "Title", Err.EOF⟩⟩]
      ⟨"word/header1.xml", ⟨sampleParagraph "kept" ++ [startOf "w" "p"],
        Err.other "XML syntax error"⟩⟩ [] rfl (by simp) (by decide)).1,
    (ReadAllFiles_no_partial_results failingReader
      [⟨"word/document.xml", ⟨sampleParagraph "Title", Err.EOF⟩⟩]
      ⟨"word/header1.xml", ⟨sampleParagraph "kept" ++ [startOf "w" "p"],
        Err.other "XML syntax error"⟩⟩ [] rfl (by simp) (by decide)).2.1⟩

/-! ## Classification of the parts -/

/-- C8: a part whose scan succeeded is written to exactly one of the four
builders, chosen by substring containment on its name in this order: "header",
else "footer", else "footnotes", else the content.  So a name that contains
"header" goes to the header whatever else it contains, and a name with
"footnotes" but neither "header" nor "footer" goes to the footnotes. -/
theorem ReadAllFilesLoop_one_section (header footer footnotes content : String)
    (fileReader : FileReader) (rest : List FileReader)
    (hok : (readSingleFile fileReader.decoder).1.2 = none) :
    (Contains fileReader.fileName "header" = true →
      (ReadAllFilesLoop header footer footnotes content (fileReader :: rest)).1 =
        (ReadAllFilesLoop (header ++ (readSingleFile fileReader.decoder).1.1) footer
          footnotes content rest).1) ∧
    (Contains fileReader.fileName "header" = false →
      Contains fileReader.fileName "footer" = true →
      (ReadAllFilesLoop header footer footnotes content (fileReader :: rest)).1 =
        (ReadAllFilesLoop header (footer ++ (readSingleFile fileReader.decoder).1.1)
          footnotes content rest).1) ∧
    (Contains fileReader.fileName "header" = false →
      Contains fileReader.fileName "footer" = false →
      Contains fileReader.fileName "footnotes" = true →
      (ReadAllFilesLoop header footer footnotes content (fileReader :: rest)).1 =
        (ReadAllFilesLoop header footer
          (footnotes ++ (readSingleFile fileReader.decoder).1.1) content rest).1) ∧
    (Contains fileReader.fileName "header" = false →
      Contains fileReader.fileName "footer" = false →
      Contains fileReader.fileName "footnotes" = false →
      (ReadAllFilesLoop header footer footnotes content (fileReader :: rest)).1 =
        (ReadAllFilesLoop header footer footnotes
          (content ++ (readSingleFile fileReader.decoder).1.1) rest).1) := by
  refine ⟨?_, ?_, ?_, ?_⟩
  · intro c1
    simp [ReadAllFilesLoop, hok, c1]
  · intro c1 c2
    simp [ReadAllFilesLoop, hok, c1, c2]
  · intro c1 c2 c3
    simp [ReadAllFilesLoop, hok, c1, c2, c3]
  · intro c1 c2 c3
    simp [ReadAllFilesLoop, hok, c1, c2, c3]

theorem ReadAllFilesLoop_one_section_witness :
    ((readSingleFile (⟨sampleParagraph "x", Err.EOF⟩ : Decoder)).1.2 = none ∧
      Contains "word/header_footer.xml" "header" = true ∧
      Contains "word/header_footer.xml" "footer" = true) ∧
    (ReadAllFilesLoop "" "" "" ""
        [⟨"word/header_footer.xml", ⟨sampleParagraph "x", Err.EOF⟩⟩]).1 =
      ⟨"x", "", "", "", none⟩ := by
  have hok : (readSingleFile (⟨sampleParagraph "x", Err.EOF⟩ : Decoder)).1.2 = none :=
    readSingleFile_of_EOF _ rfl
  refine ⟨⟨hok, by decide, by decide⟩, ?_⟩
  rw [(ReadAllFilesLoop_one_section "" "" "" ""
    ⟨"word/header_footer.xml", ⟨sampleParagraph "x", Err.EOF⟩⟩ [] hok).1 (by decide)]
  simp [ReadAllFilesLoop, trimmedString, sampleParagraph, readSingleFile,
    readSingleFileLoop, read, seekNextTag, seekParagraph, seekNextTagLoop,
    seekParagraphLoop, seekTextLoop, startOf, endOf, xmlTab, xmlParagraph]
  decide

/-! ## Selection of the archive entries -/

theorem isSelected_iff (name : String) :
    isSelected name = true ↔
      (name = "word/document.xml" ∨ Contains name "header" = true ∨
        Contains name "footer" = true ∨ Contains name "footnotes" = true) := by
  simp [isSelected, or_assoc]

theorem getFileReadersLoop_ok (zipReader : ZipReader) (files : List ZipFile) :
    (∀ file ∈ files, isSelected file.Name = true →
      ∃ d, zipReader.Open file.Name = Except.ok d) →
    ∀ acc : List FileReader,
      (getFileReadersLoop zipReader acc files).2 = none ∧
      (getFileReadersLoop zipReader acc files).1.map FileReader.fileName =
        acc.map FileReader.fileName ++
          (files.filter (fun file => isSelected file.Name)).map ZipFile.Name ∧
      ∀ fr ∈ (getFileReadersLoop zipReader acc files).1,
        fr ∈ acc ∨ zipReader.Open fr.fileName = Except.ok fr.decoder := by
  induction files with
  | nil =>
    intro _ acc
    simp only [getFileReadersLoop, List.filter_nil, List.map_nil, List.append_nil, true_and]
    exact fun fr hfr => Or.inl hfr
  | cons file rest ih =>
    intro h acc
    have hrest := ih (fun f hf => h f (List.mem_cons_of_mem _ hf))
    by_cases hs : isSelected file.Name = true
    · obtain ⟨d, hd⟩ := h file (List.mem_cons_self _ _) hs
      have hc := (isSelected_iff file.Name).mp hs
      obtain ⟨r1, r2, r3⟩ := hrest (acc ++ [⟨file.Name, d⟩])
      simp only [getFileReadersLoop, hc, if_true, hd, List.filter_cons, hs]
      refine ⟨r1, ?_, ?_⟩
      · rw [r2]
        simp
      · intro fr hfr
        rcases r3 fr hfr with h1 | h2
        · rcases List.mem_append.mp h1 with h3 | h4
          · exact Or.inl h3
          · rw [List.mem_singleton] at h4
            subst h4
            exact Or.inr hd
        · exact Or.inr h2
    · have hc : ¬ (file.Name = "word/document.xml" ∨ Contains file.Name "header" = true ∨
          Contains file.Name "footer" = true ∨ Contains file.Name "footnotes" = true) :=
        fun hh => hs ((isSelected_iff file.Name).mpr hh)
      simp only [getFileReadersLoop, hc, if_false, List.filter_cons, hs]
      exact hrest acc

theorem getFileReadersLoop_fail (zipReader : ZipReader) (pre : List ZipFile)
    (file : ZipFile) (post : List ZipFile) (e : Err)
    (hsel : isSelected file.Name = true)
    (hopen : zipReader.Open file.Name = Except.error e) :
    (∀ g ∈ pre, isSelected g.Name = true → ∃ d, zipReader.Open g.Name = Except.ok d) →
    ∀ acc : List FileReader,
      getFileReadersLoop zipReader acc (pre ++ file :: post) = ([], some e) := by
  induction pre with
  | nil =>
    intro _ acc
    have hc := (isSelected_iff file.Name).mp hsel
    simp only [List.nil_append, getFileReadersLoop, hc, if_true, hopen]
  | cons g rest ih =>
    intro h acc
    have hrest := ih (fun f hf => h f (List.mem_cons_of_mem _ hf))
    by_cases hs : isSelected g.Name = true
    · obtain ⟨d, hd⟩ := h g (List.mem_cons_self _ _) hs
      have hc := (isSelected_iff g.Name).mp hs
      simp only [List.cons_append, getFileReadersLoop, hc, if_true, hd]
      exact hrest _
    · have hc : ¬ (g.Name = "word/document.xml" ∨ Contains g.Name "header" = true ∨
          Contains g.Name "footer" = true ∨ Contains g.Name "footnotes" = true) :=
        fun hh => hs ((isSelected_iff g.Name).mpr hh)
      simp only [List.cons_append, getFileReadersLoop, hc, if_false]
      exact hrest _

/-- C10: when every selected entry opens, `getFileReaders` returns a nil error
and one reader per entry whose name is "word/document.xml" or contains
"header", "footer" or "footnotes", in archive-listing order with nothing added
or dropped, each reader holding the stream `Open` gives for its name; when a selected
entry fails to open (the entries before it having opened), it returns that
error and no readers. -/
theorem getFileReaders_selects (zipReader : ZipReader) :
    ((∀ file ∈ zipReader.File, isSelected file.Name = true →
        ∃ d, zipReader.Open file.Name = Except.ok d) →
      (getFileReaders zipReader).2 = none ∧
      (getFileReaders zipReader).1.map FileReader.fileName =
        (zipReader.File.filter (fun file => isSelected file.Name)).map ZipFile.Name ∧
      ∀ fr ∈ (getFileReaders zipReader).1,
        zipReader.Open fr.fileName = Except.ok fr.decoder) ∧
    (∀ (pre : List ZipFile) (file : ZipFile) (post : List ZipFile) (e : Err),
      zipReader.File = pre ++ file :: post →
      (∀ g ∈ pre, isSelected g.Name = true → ∃ d, zipReader.Open g.Name = Except.ok d) →
      isSelected file.Name = true →
      zipReader.Open file.Name = Except.error e →
      getFileReaders zipReader = ([], some e)) := by
  constructor
  · intro h
    obtain ⟨r1, r2, r3⟩ := getFileReadersLoop_ok zipReader zipReader.File h []
    refine ⟨r1, by simpa using r2, ?_⟩
    intro fr hfr
    rcases r3 fr hfr with h1 | h2
    · simp at h1
    · exact h2
  · intro pre file post e hsplit hpre hsel hopen
    rw [getFileReaders, hsplit]
    exact getFileReadersLoop_fail zipReader pre file post e hsel hopen hpre []

theorem getFileReaders_selects_witness :
    (∀ file ∈ sampleZip.File, isSelected file.Name = true →
        ∃ d, sampleZip.Open file.Name = Except.ok d) ∧
    (getFileReaders sampleZip).2 = none ∧
    (getFileReaders sampleZip).1.map FileReader.fileName =
      ["word/header1.xml", "word/document.xml", "word/footnotes.xml"] ∧
    getFileReaders brokenZip = ([], some (Err.other "zip: checksum error")) := by
  have hopen : ∀ file ∈ sampleZip.File, isSelected file.Name = true →
      ∃ d, sampleZip.Open file.Name = Except.ok d := fun _ _ _ => ⟨_, rfl⟩
  have hok := (getFileReaders_selects sampleZip).1 hopen
  refine ⟨hopen, hok.1, ?_, ?_⟩
  · rw [hok.2.1]
    decide
  · exact (getFileReaders_selects brokenZip).2
      [⟨"[Content_Types].xml"⟩, ⟨"word/header1.xml"⟩, ⟨"word/document.xml"⟩,
        ⟨"word/styles.xml"⟩]
      ⟨"word/footnotes.xml"⟩ [] (Err.other "zip: checksum error") rfl
      (fun g hg _ => by
        refine ⟨⟨[], Err.EOF⟩, ?_⟩
        simp only [List.mem_cons, List.mem_singleton, List.not_mem_nil, or_false] at hg
        rcases hg with rfl | rfl | rfl | rfl <;> simp [brokenZip])
      (by decide) (by simp [brokenZip])

/-! ## The format gate of `NewReader` -/

theorem Ext_DOCX (name : String) : Ext (name ++ ".DOCX") = ".DOCX" := by
  simp [Ext, extLoop, String.data_append]

theorem getFileReadersLoop_error (zipReader : ZipReader) (files : List ZipFile) (e : Err) :
    ∀ acc : List FileReader, (getFileReadersLoop zipReader acc files).2 = some e →
      ∃ name, zipReader.Open name = Except.error e := by
  induction files with
  | nil =>
    intro acc h
    simp [getFileReadersLoop] at h
  | cons file rest ih =>
    intro acc
    simp only [getFileReadersLoop]
    split_ifs with hsel
    · cases hopen : zipReader.Open file.Name with
      | error e1 =>
        simp only
        intro h
        simp only [Option.some.injEq] at h
        subst h
        exact ⟨file.Name, hopen⟩
      | ok d =>
        simp only
        exact ih _
    · exact ih _

theorem NewReader_reject (env : Env) (fx : Effects) (docxPath : String)
    (h : ToLower (Ext docxPath) ≠ ".docx") :
    NewReader env fx docxPath = ((none, some Err.ErrNotSupportFormat), fx) := by
  simp [NewReader, h]

theorem NewReader_foreign (env : Env) (fx : Effects) (docxPath : String)
    (hlib : foreignErrors env docxPath) (h : ToLower (Ext docxPath) = ".docx") :
    (NewReader env fx docxPath).1.2 ≠ some Err.ErrNotSupportFormat := by
  obtain ⟨h1, h2⟩ := hlib
  simp only [NewReader, h, ne_eq, not_true_eq_false, if_false, OpenReader]
  cases hf : env.ReadFile docxPath with
  | error e =>
    simp only
    intro hc
    simp only [Option.some.injEq] at hc
    exact h1 (by rw [hf, hc])
  | ok byteValues =>
    obtain ⟨h3, h4⟩ := h2 byteValues hf
    simp only
    cases hz : env.zipNewReader byteValues with
    | error e =>
      simp only
      intro hc
      simp only [Option.some.injEq] at hc
      exact h3 (by rw [hz, hc])
    | ok zipReader =>
      simp only
      cases hg : (getFileReaders zipReader).2 with
      | none => simp
      | some e =>
        simp only
        intro hc
        simp only [Option.some.injEq] at hc
        subst hc
        obtain ⟨name, hname⟩ := getFileReadersLoop_error zipReader _ _ [] hg
        exact h4 zipReader hz name hname

/-- C11: `NewReader` returns `ErrNotSupportFormat` exactly when the lower-cased
extension of the path is not ".docx" (the errors of the file system and of the
zip library being their own); it then returns no reader, whatever the file
system holds, and leaves the effects as they were: nothing was opened.  The
test ignores case: a path ending in ".DOCX" passes it. -/
theorem NewReader_format_gate (env : Env) (fx : Effects) (docxPath : String)
    (hlib : foreignErrors env docxPath) :
    ((NewReader env fx docxPath).1.2 = some Err.ErrNotSupportFormat ↔
      ToLower (Ext docxPath) ≠ ".docx") ∧
    (ToLower (Ext docxPath) ≠ ".docx" →
      ∀ env2 : Env, NewReader env2 fx docxPath = ((none, some Err.ErrNotSupportFormat), fx)) ∧
    (∀ name : String, ToLower (Ext (name ++ ".DOCX")) = ".docx") := by
  refine ⟨⟨?_, ?_⟩, ?_, ?_⟩
  · intro h hext
    exact NewReader_foreign env fx docxPath hlib hext h
  · intro h
    rw [NewReader_reject env fx docxPath h]
  · intro h env2
    exact NewReader_reject env2 fx docxPath h
  · intro name
    rw [Ext_DOCX]
    decide

theorem fixtureEnv_foreign : foreignErrors fixtureEnv "testdata/test.DOCX" := by
  refine ⟨by simp [fixtureEnv], ?_⟩
  intro byteValues hb
  have hb2 : byteValues = [80, 75, 3, 4] := by
    simp [fixtureEnv] at hb
    exact hb.symm
  subst hb2
  refine ⟨by simp [fixtureEnv], ?_⟩
  intro zipReader hz name
  have hz2 : zipReader = fixtureZip := by
    simp [fixtureEnv] at hz
    exact hz.symm
  subst hz2
  simp only [fixtureZip]
  split_ifs <;> simp

theorem NewReader_format_gate_witness :
    (foreignErrors fixtureEnv "testdata/test.DOCX" ∧
      foreignErrors fixtureEnv "testdata/test.doc" ∧
      ToLower (Ext "testdata/test.doc") ≠ ".docx") ∧
    ((NewReader fixtureEnv ⟨[], [], []⟩ "testdata/test.DOCX").1.2 =
        some Err.ErrNotSupportFormat ↔
      ToLower (Ext "testdata/test.DOCX") ≠ ".docx") ∧
    ToLower (Ext "testdata/test.DOCX") = ".docx" ∧
    NewReader fixtureEnv ⟨[], [], []⟩ "testdata/test.doc" =
      ((none, some Err.ErrNotSupportFormat), ⟨[], [], []⟩) := by
  have hdoc : foreignErrors fixtureEnv "testdata/test.doc" := by
    refine ⟨by simp [fixtureEnv], ?_⟩
    intro byteValues hb
    simp [fixtureEnv] at hb
  exact ⟨⟨fixtureEnv_foreign, hdoc, by decide⟩,
    (NewReader_format_gate fixtureEnv ⟨[], [], []⟩ "testdata/test.DOCX" fixtureEnv_foreign).1,
    by decide,
    (NewReader_format_gate fixtureEnv ⟨[], [], []⟩ "testdata/test.doc" hdoc).2.1 (by decide)
      fixtureEnv⟩

/-! ## A path and a buffer with the same bytes -/

/-- C12: when the file at a path with the lower-cased extension ".docx" holds
the bytes `byteValues`, `NewReader` on the path and `NewReaderFromBytes` on
the bytes return the same error, build a reader in the same cases, and the
readers built hold the same parts in the same order and give the same five
results of `ReadAllFiles`. -/
theorem NewReader_agrees_with_bytes (env : Env) (fx : Effects) (docxPath : String)
    (byteValues : List Nat) (hext : ToLower (Ext docxPath) = ".docx")
    (hfile : env.ReadFile docxPath = Except.ok byteValues) :
    (NewReader env fx docxPath).1.2 = (NewReaderFromBytes env byteValues).2 ∧
    (NewReader env fx docxPath).1.1.map Reader.fileReaders =
      (NewReaderFromBytes env byteValues).1.map Reader.fileReaders ∧
    (NewReader env fx docxPath).1.1.map (fun r => (ReadAllFiles r).1) =
      (NewReaderFromBytes env byteValues).1.map (fun r => (ReadAllFiles r).1) := by
  simp only [NewReader, hext, ne_eq, not_true_eq_false, if_false, OpenReader, hfile,
    NewReaderFromBytes]
  cases env.zipNewReader byteValues with
  | error e => simp
  | ok zipReader =>
    simp only
    cases hg : (getFileReaders zipReader).2 with
    | some e => simp
    | none => simp [ReadAllFiles]

theorem fixture_built :
    (NewReaderFromBytes fixtureEnv [80, 75, 3, 4]).1 =
      some ⟨"", false, false,
        [⟨"word/header1.xml", ⟨sampleParagraph "test header", Err.EOF⟩⟩,
          ⟨"word/document.xml",
            ⟨sampleParagraph "Title" ++ sampleParagraph "Subtitle", Err.EOF⟩⟩]⟩ := by
  have c1 : Contains "word/header1.xml" "header" = true := by decide
  have c2 : Contains "word/styles.xml" "header" = false := by decide
  have c3 : Contains "word/styles.xml" "footer" = false := by decide
  have c4 : Contains "word/styles.xml" "footnotes" = false := by decide
  simp [NewReaderFromBytes, fixtureEnv, getFileReaders, getFileReadersLoop, fixtureZip,
    c1, c2, c3, c4]

theorem NewReader_agrees_with_bytes_witness :
    (ToLower (Ext "testdata/test.DOCX") = ".docx" ∧
      fixtureEnv.ReadFile "testdata/test.DOCX" = Except.ok [80, 75, 3, 4]) ∧
    (NewReader fixtureEnv ⟨[], [], []⟩ "testdata/test.DOCX").1.1.map
        (fun r => (ReadAllFiles r).1) =
      (NewReaderFromBytes fixtureEnv [80, 75, 3, 4]).1.map (fun r => (ReadAllFiles r).1) ∧
    (NewReaderFromBytes fixtureEnv [80, 75, 3, 4]).1.map (fun r => (ReadAllFiles r).1) =
      some ⟨"test header", "Title Subtitle", "", "", none⟩ := by
  refine ⟨⟨by decide, by simp [fixtureEnv]⟩,
    (NewReader_agrees_with_bytes fixtureEnv ⟨[], [], []⟩ "testdata/test.DOCX" [80, 75, 3, 4]
      (by decide) (by simp [fixtureEnv])).2.2, ?_⟩
  have c1 : Contains "word/document.xml" "header" = false := by decide
  have c2 : Contains "word/document.xml" "footer" = false := by decide
  have c3 : Contains "word/document.xml" "footnotes" = false := by decide
  have c4 : Contains "word/header1.xml" "header" = true := by decide
  rw [fixture_built]
  simp [ReadAllFiles, ReadAllFilesLoop, trimmedString, c1, c2, c3, c4, sampleParagraph,
    readSingleFile, readSingleFileLoop, read, seekNextTag, seekParagraph, seekNextTagLoop,
    seekParagraphLoop, seekTextLoop, startOf, endOf, xmlTab, xmlParagraph]
  decide

/-! ## Seeking the next tag -/

theorem tokens_split (tag : String) (tokens : List Token) :
    tokens.all (fun tok => !isStartOf tag tok) = true ∨
      ∃ (pre : List Token) (n : Name) (rest : List Token),
        tokens = pre ++ Token.StartElement n :: rest ∧ n.Local = tag ∧
          pre.all (fun tok => !isStartOf tag tok) = true := by
  induction tokens with
  | nil => exact Or.inl rfl
  | cons tok rest ih =>
    by_cases h : isStartOf tag tok = true
    · right
      cases tok with
      | StartElement n =>
        exact ⟨[], n, rest, rfl, by simpa [isStartOf] using h, rfl⟩
      | _ => simp [isStartOf] at h
    · have hf : isStartOf tag tok = false := by simpa using h
      rcases ih with h1 | ⟨pre, n, rest2, h2, h3, h4⟩
      · left
        simp [List.all_cons, hf, h1]
      · right
        refine ⟨tok :: pre, n, rest2, by simp [h2], h3, ?_⟩
        simp [List.all_cons, hf, h4]

/-- C13: `seekNextTag` drops every event up to and including the first
`StartElement` with the local name `tag`, none of the dropped events before it
being such a start, returns nil and leaves the stream right after that event;
on a stream without such an event it reads to the end and returns the error
of the stream unchanged.  Every stream is of one of the two kinds. -/
theorem seekNextTag_first_start (decoder : Decoder) (tag : String) :
    (∀ (pre : List Token) (n : Name) (rest : List Token),
      decoder.tokens = pre ++ Token.StartElement n :: rest → n.Local = tag →
      pre.all (fun tok => !isStartOf tag tok) = true →
      seekNextTag decoder tag = (none, ⟨rest, decoder.err⟩)) ∧
    (decoder.tokens.all (fun tok => !isStartOf tag tok) = true →
      seekNextTag decoder tag = (some decoder.err, ⟨[], decoder.err⟩)) ∧
    (decoder.tokens.all (fun tok => !isStartOf tag tok) = true ∨
      ∃ (pre : List Token) (n : Name) (rest : List Token),
        decoder.tokens = pre ++ Token.StartElement n :: rest ∧ n.Local = tag ∧
          pre.all (fun tok => !isStartOf tag tok) = true) := by
  refine ⟨?_, ?_, tokens_split tag decoder.tokens⟩
  · intro pre n rest hsplit hn hpre
    have hhit := seekNextTagLoop_hit decoder.err n.Space tag rest
    simp only [startOf] at hhit
    have hname : n = ⟨n.Space, tag⟩ := by
      cases n
      simp at hn
      simp [hn]
    simp only [seekNextTag, hsplit]
    rw [seekNextTagLoop_skip decoder.err tag pre _ hpre, hname, hhit]
  · intro hall
    simp only [seekNextTag, seekNextTagLoop_none decoder.err tag decoder.tokens hall]

theorem seekNextTag_first_start_witness :
    ((⟨[Token.CharData "x", startOf "w" "body", startOf "w" "p", startOf "w" "t"],
          Err.EOF⟩ : Decoder).tokens =
        [Token.CharData "x", startOf "w" "body"] ++
          Token.StartElement ⟨"w", "p"⟩ :: [startOf "w" "t"] ∧
      (⟨"w", "p"⟩ : Name).Local = "p" ∧
      [Token.CharData "x", startOf "w" "body"].all (fun tok => !isStartOf "p" tok) = true) ∧
    seekNextTag ⟨[Token.CharData "x", startOf "w" "body", startOf "w" "p", startOf "w" "t"],
        Err.EOF⟩ "p" = (none, ⟨[startOf "w" "t"], Err.EOF⟩) :=
  ⟨⟨rfl, rfl, by decide⟩,
    (seekNextTag_first_start
      ⟨[Token.CharData "x", startOf "w" "body", startOf "w" "p", startOf "w" "t"], Err.EOF⟩
      "p").1 [Token.CharData "x", startOf "w" "body"] ⟨"w", "p"⟩ [startOf "w" "t"] rfl rfl
      (by decide)⟩

/-! ## What the scanner leaves out -/

/-- C14: only the text of tabs is kept.  On events with no start of `t` up to
their first end of `p`, `seekParagraph` returns the empty string whatever
character data and elements they hold; and on a stream with no start of `p`,
`readSingleFile` returns the empty string whatever tabs and character data
it holds, with a nil error when the stream ends in `io.EOF`. -/
theorem only_tab_text_is_kept (err : Err) (space : String) (mid rest fill : List Token)
    (hmid : ∀ tok ∈ mid, isStartOf xmlTab tok = false ∧ isEndOf xmlParagraph tok = false)
    (hfill : fill.all (fun tok => !isStartOf xmlParagraph tok) = true) :
    seekParagraph ⟨mid ++ endOf space xmlParagraph :: rest, err⟩ = (("", none), ⟨rest, err⟩) ∧
    readSingleFile ⟨fill, Err.EOF⟩ = (("", none), ⟨[], Err.EOF⟩) ∧
    (readSingleFile ⟨fill, err⟩).1.1 = "" := by
  refine ⟨?_, readSingleFileLoop_tail "" fill hfill, ?_⟩
  · simp only [seekParagraph]
    rw [seekParagraphLoop_skip err "" mid _ hmid, seekParagraphLoop_close]
  · by_cases hE : err = Err.EOF
    · subst hE
      rw [readSingleFile, readSingleFileLoop_tail "" fill hfill]
    · rw [readSingleFile_of_error ⟨fill, err⟩ hE]

theorem only_tab_text_is_kept_witness :
    ((∀ tok ∈ [Token.CharData "outside", startOf "w" "r", Token.CharData "a run",
          endOf "w" "r"],
        isStartOf xmlTab tok = false ∧ isEndOf xmlParagraph tok = false) ∧
      [startOf "w" "t", Token.CharData "no paragraph", endOf "w" "t"].all
        (fun tok => !isStartOf xmlParagraph tok) = true) ∧
    seekParagraph ⟨[Token.CharData "outside", startOf "w" "r", Token.CharData "a run",
        endOf "w" "r"] ++ endOf "w" xmlParagraph :: [], Err.EOF⟩ = (("", none), ⟨[], Err.EOF⟩) ∧
    readSingleFile ⟨[startOf "w" "t", Token.CharData "no paragraph", endOf "w" "t"],
        Err.EOF⟩ = (("", none), ⟨[], Err.EOF⟩) :=
  ⟨⟨by decide, by decide⟩,
    (only_tab_text_is_kept Err.EOF "w"
      [Token.CharData "outside", startOf "w" "r", Token.CharData "a run", endOf "w" "r"] []
      [startOf "w" "t", Token.CharData "no paragraph", endOf "w" "t"]
      (by decide) (by decide)).1,
    (only_tab_text_is_kept Err.EOF "w"
      [Token.CharData "outside", startOf "w" "r", Token.CharData "a run", endOf "w" "r"] []
      [startOf "w" "t", Token.CharData "no paragraph", endOf "w" "t"]
      (by decide) (by decide)).2.1⟩

theorem read_skip (err : Err) (fill tail : List Token)
    (h : fill.all (fun tok => !isStartOf xmlParagraph tok) = true) :
    read ⟨fill ++ tail, err⟩ = read ⟨tail, err⟩ := by
  simp only [read, seekNextTag, seekNextTagLoop_skip err xmlParagraph fill tail h]

theorem readSingleFileLoop_skip (err : Err) (content : String) (fill tail : List Token)
    (h : fill.all (fun tok => !isStartOf xmlParagraph tok) = true) :
    readSingleFileLoop content ⟨fill ++ tail, err⟩ = readSingleFileLoop content ⟨tail, err⟩ := by
  conv_lhs => rw [readSingleFileLoop, read_skip err fill tail h]
  conv_rhs => rw [readSingleFileLoop]

theorem seekParagraph_nested (err : Err) (space : String) (first second : List Piece)
    (tail : List Token) (h1 : first.all Piece.ok = true) (h2 : second.all Piece.ok = true) :
    seekParagraph ⟨bodyEvents first ++ startOf space xmlParagraph ::
        (bodyEvents second ++ endOf space xmlParagraph :: tail), err⟩ =
      ((bodyText first ++ bodyText second, none), ⟨tail, err⟩) := by
  have hs : isStartOf xmlTab (startOf space xmlParagraph) = false := by
    simp [isStartOf, startOf, xmlTab, xmlParagraph]
  have he : isEndOf xmlParagraph (startOf space xmlParagraph) = false := by
    simp [isEndOf, startOf]
  simp only [seekParagraph]
  rw [seekParagraphLoop_body err first h1, seekParagraphLoop_other err _ _ _ hs he,
    seekParagraphLoop_body err second h2, seekParagraphLoop_close, String.empty_append]

/-- C15: the end of a paragraph is found by its name, not by nesting.  After a
paragraph start, on `A ++ [start p] ++ B ++ [end p] ++ C ++ [end p] ++ rest`
with `A`, `B`, `C` made of complete tabs, `seekParagraph` returns the text of
`A` and of `B` and leaves `C ++ [end p] ++ rest` unread; `readSingleFile` then
passes over `C`, which holds no start of `p`, so that its text is in no
paragraph of the result. -/
theorem seekParagraph_ends_by_name (err : Err) (space : String) (A B C : List Piece)
    (rest : List Token) (paras : List Para) (after : List Token)
    (hA : A.all Piece.ok = true) (hB : B.all Piece.ok = true)
    (hC : (bodyEvents C).all (fun tok => !isStartOf xmlParagraph tok) = true)
    (hp : paras.all Para.ok = true)
    (ha : after.all (fun tok => !isStartOf xmlParagraph tok) = true) :
    seekParagraph ⟨bodyEvents A ++ startOf space xmlParagraph :: (bodyEvents B ++
        endOf space xmlParagraph :: (bodyEvents C ++ endOf space xmlParagraph :: rest)),
        err⟩ =
      ((bodyText A ++ bodyText B, none),
        ⟨bodyEvents C ++ endOf space xmlParagraph :: rest, err⟩) ∧
    readSingleFile ⟨startOf space xmlParagraph :: (bodyEvents A ++
        startOf space xmlParagraph :: (bodyEvents B ++ endOf space xmlParagraph ::
          ((bodyEvents C ++ [endOf space xmlParagraph]) ++ (docEvents paras ++ after)))),
        Err.EOF⟩ =
      ((bodyText A ++ bodyText B ++ " " ++ docText paras, none), ⟨[], Err.EOF⟩) := by
  refine ⟨seekParagraph_nested err space A B _ hA hB, ?_⟩
  have hfill : (bodyEvents C ++ [endOf space xmlParagraph]).all
      (fun tok => !isStartOf xmlParagraph tok) = true := by
    rw [List.all_append, hC]
    simp [isStartOf, endOf]
  have hread : read ⟨startOf space xmlParagraph :: (bodyEvents A ++
      startOf space xmlParagraph :: (bodyEvents B ++ endOf space xmlParagraph ::
        ((bodyEvents C ++ [endOf space xmlParagraph]) ++ (docEvents paras ++ after)))),
      Err.EOF⟩ =
      ((bodyText A ++ bodyText B, none),
        ⟨(bodyEvents C ++ [endOf space xmlParagraph]) ++ (docEvents paras ++ after),
          Err.EOF⟩) := by
    simp only [read, seekNextTag, seekNextTagLoop_hit,
      seekParagraph_nested Err.EOF space A B _ hA hB]
  rw [readSingleFile, readSingleFileLoop, hread]
  simp only [reduceCtorEq, if_false, ne_eq, not_true_eq_false, dite_false]
  rw [readSingleFileLoop_skip Err.EOF _ _ _ hfill, readSingleFileLoop_doc Err.EOF paras hp,
    readSingleFileLoop_tail _ after ha, String.empty_append]

theorem seekParagraph_ends_by_name_witness :
    ([Piece.tab "w" (some "a")].all Piece.ok = true ∧
      [Piece.tab "w" (some "b")].all Piece.ok = true ∧
      (bodyEvents [Piece.tab "w" (some "c")]).all
        (fun tok => !isStartOf xmlParagraph tok) = true ∧
      ([] : List Para).all Para.ok = true ∧
      ([] : List Token).all (fun tok => !isStartOf xmlParagraph tok) = true) ∧
    readSingleFile ⟨[startOf "w" "p", startOf "w" "t", Token.CharData "a", endOf "w" "t",
        startOf "w" "p", startOf "w" "t", Token.CharData "b", endOf "w" "t", endOf "w" "p",
        startOf "w" "t", Token.CharData "c", endOf "w" "t", endOf "w" "p"], Err.EOF⟩ =
      (("ab ", none), ⟨[], Err.EOF⟩) :=
  ⟨⟨by decide, by decide, by decide, by decide, by decide⟩,
    (seekParagraph_ends_by_name Err.EOF "w" [Piece.tab "w" (some "a")]
      [Piece.tab "w" (some "b")] [Piece.tab "w" (some "c")] [] [] []
      (by decide) (by decide) (by decide) (by decide) (by decide)).2⟩

/-! ## Inside a tab -/

theorem seekTextLoop_passed (err : Err) (passed tail : List Token)
    (h : passed.all isPassedBySeekText = true) :
    seekTextLoop err (passed ++ tail) = seekTextLoop err tail := by
  induction passed with
  | nil => rfl
  | cons tok rest ih =>
    rw [List.all_cons, Bool.and_eq_true] at h
    cases tok with
    | CharData c => simp [isPassedBySeekText] at h
    | EndElement n => simp [isPassedBySeekText] at h
    | _ =>
      simp only [List.cons_append, seekTextLoop]
      exact ih h.2

/-- C16: `seekText` passes over every `StartElement`, comment, processing
instruction and directive, returns the payload of the first `CharData` it
meets, and returns the empty string at the first `EndElement`, whatever its
name.  So the tab `[start t, start b, CharData x, end b, end t]` gives `x`, and
the tab `[start t, start b, end b, CharData x, end t]` gives the empty
string: `x` is lost. -/
theorem seekText_passes_to_first_text_or_end (err : Err) (passed rest : List Token)
    (c : String) (n : Name) (space b x : String)
    (hpassed : passed.all isPassedBySeekText = true) (hb : b ≠ xmlParagraph) :
    seekText ⟨passed ++ Token.CharData c :: rest, err⟩ = ((c, none), ⟨rest, err⟩) ∧
    seekText ⟨passed ++ Token.EndElement n :: rest, err⟩ = (("", none), ⟨rest, err⟩) ∧
    seekParagraph ⟨[startOf space xmlTab, startOf space b, Token.CharData x, endOf space b,
        endOf space xmlTab, endOf space xmlParagraph] ++ rest, err⟩ =
      ((x, none), ⟨rest, err⟩) ∧
    seekParagraph ⟨[startOf space xmlTab, startOf space b, endOf space b, Token.CharData x,
        endOf space xmlTab, endOf space xmlParagraph] ++ rest, err⟩ =
      (("", none), ⟨rest, err⟩) := by
  have ht : ¬ xmlTab = xmlParagraph := by decide
  refine ⟨?_, ?_, ?_, ?_⟩
  · simp only [seekText, seekTextLoop_passed err passed _ hpassed, seekTextLoop]
  · simp only [seekText, seekTextLoop_passed err passed _ hpassed, seekTextLoop]
  · simp only [seekParagraph, List.cons_append, List.nil_append]
    rw [startOf, seekParagraphLoop]
    simp only [if_true, startOf, seekTextLoop, String.empty_append]
    rw [endOf, seekParagraphLoop]
    simp only [hb, if_false]
    rw [endOf, seekParagraphLoop]
    simp only [ht, if_false]
    rw [seekParagraphLoop_close]
  · simp only [seekParagraph, List.cons_append, List.nil_append]
    rw [startOf, seekParagraphLoop]
    simp only [if_true, startOf, endOf, seekTextLoop, String.empty_append]
    rw [seekParagraphLoop, seekParagraphLoop]
    simp only [ht, if_false]
    have := seekParagraphLoop_close err "" space rest
    rw [endOf] at this
    rw [this]

theorem seekText_passes_to_first_text_or_end_witness :
    ([startOf "w" "b", Token.Comment "note"].all isPassedBySeekText = true ∧
      "b" ≠ xmlParagraph) ∧
    seekText ⟨[startOf "w" "b", Token.Comment "note"] ++ Token.CharData "x" :: [endOf "w" "b"],
        Err.EOF⟩ = (("x", none), ⟨[endOf "w" "b"], Err.EOF⟩) ∧
    seekParagraph ⟨[startOf "w" xmlTab, startOf "w" "b", endOf "w" "b", Token.CharData "x",
        endOf "w" xmlTab, endOf "w" xmlParagraph] ++ [], Err.EOF⟩ =
      (("", none), ⟨[], Err.EOF⟩) :=
  ⟨⟨by decide, by decide⟩,
    (seekText_passes_to_first_text_or_end Err.EOF [startOf "w" "b", Token.Comment "note"]
      [endOf "w" "b"] "x" ⟨"w", "t"⟩ "w" "b" "x" (by decide) (by decide)).1,
    (seekText_passes_to_first_text_or_end Err.EOF [startOf "w" "b", Token.Comment "note"]
      [] "x" ⟨"w", "t"⟩ "w" "b" "x" (by decide) (by decide)).2.2.2⟩

/-! ## The readers the package builds -/

theorem NewReader_built (env : Env) (fx : Effects) (docxPath : String) (r : Reader)
    (h : (NewReader env fx docxPath).1.1 = some r) :
    ∃ zipReader : ZipReader, r = ⟨docxPath, false, true, (getFileReaders zipReader).1⟩ := by
  by_cases hext : ToLower (Ext docxPath) = ".docx"
  · simp only [NewReader, hext, ne_eq, not_true_eq_false, if_false] at h
    cases hopen : OpenReader env docxPath with
    | error e =>
      rw [hopen] at h
      simp at h
    | ok zipReader =>
      rw [hopen] at h
      simp only at h
      cases hg : (getFileReaders zipReader).2 with
      | some e =>
        rw [hg] at h
        simp at h
      | none =>
        rw [hg] at h
        simp only [Option.some.injEq] at h
        exact ⟨zipReader, h.symm⟩
  · rw [NewReader_reject env fx docxPath hext] at h
    simp at h

theorem NewReaderFromBytes_built (env : Env) (byteValues : List Nat) (r : Reader)
    (h : (NewReaderFromBytes env byteValues).1 = some r) :
    ∃ zipReader : ZipReader, r = ⟨"", false, false, (getFileReaders zipReader).1⟩ := by
  unfold NewReaderFromBytes at h
  cases hz : env.zipNewReader byteValues with
  | error e =>
    rw [hz] at h
    simp at h
  | ok zipReader =>
    rw [hz] at h
    simp only at h
    cases hg : (getFileReaders zipReader).2 with
    | some e =>
      rw [hg] at h
      simp at h
    | none =>
      rw [hg] at h
      simp only [Option.some.injEq] at h
      exact ⟨zipReader, h.symm⟩

theorem getFileReadersLoop_selected (zipReader : ZipReader) (files : List ZipFile) :
    ∀ acc : List FileReader, ∀ fr ∈ (getFileReadersLoop zipReader acc files).1,
      fr ∈ acc ∨ isSelected fr.fileName = true := by
  induction files with
  | nil =>
    intro acc fr hfr
    exact Or.inl hfr
  | cons file rest ih =>
    intro acc fr
    simp only [getFileReadersLoop]
    split_ifs with hsel
    · cases hopen : zipReader.Open file.Name with
      | error e => simp
      | ok d =>
        simp only
        intro hfr
        rcases ih _ fr hfr with h1 | h2
        · rcases List.mem_append.mp h1 with h3 | h4
          · exact Or.inl h3
          · rw [List.mem_singleton] at h4
            subst h4
            exact Or.inr ((isSelected_iff file.Name).mpr hsel)
        · exact Or.inr h2
    · exact ih acc fr

theorem selected_content_name (name : String) (hsel : isSelected name = true)
    (h1 : Contains name "header" = false) (h2 : Contains name "footer" = false)
    (h3 : Contains name "footnotes" = false) : name = "word/document.xml" := by
  simpa [isSelected, h1, h2, h3] using hsel

theorem getFileReaders_content_name (zipReader : ZipReader) (fr : FileReader)
    (hfr : fr ∈ (getFileReaders zipReader).1)
    (h1 : Contains fr.fileName "header" = false) (h2 : Contains fr.fileName "footer" = false)
    (h3 : Contains fr.fileName "footnotes" = false) : fr.fileName = "word/document.xml" := by
  rcases getFileReadersLoop_selected zipReader zipReader.File [] fr hfr with h | h
  · simp at h
  · exact selected_content_name fr.fileName h h1 h2 h3

theorem sectionOf_content_iff (name : String) :
    sectionOf name = Section.Content ↔
      (Contains name "header" = false ∧ Contains name "footer" = false ∧
        Contains name "footnotes" = false) := by
  unfold sectionOf
  cases Contains name "header" <;> cases Contains name "footer" <;>
    cases Contains name "footnotes" <;> simp

theorem content_text_of_selected (fileReaders : List FileReader)
    (h : ∀ fr ∈ fileReaders, Contains fr.fileName "header" = false →
      Contains fr.fileName "footer" = false → Contains fr.fileName "footnotes" = false →
      fr.fileName = "word/document.xml") :
    sectionText Section.Content fileReaders =
      joinAll ((fileReaders.filter (fun fr => fr.fileName = "word/document.xml")).map
        (fun fr => (readSingleFile fr.decoder).1.1)) := by
  have hdoc : sectionOf "word/document.xml" = Section.Content := by decide
  unfold sectionText
  congr 2
  apply List.filter_congr
  intro fr hfr
  by_cases hc : sectionOf fr.fileName = Section.Content
  · obtain ⟨h1, h2, h3⟩ := (sectionOf_content_iff fr.fileName).mp hc
    simp [hc, h fr hfr h1 h2 h3, hdoc]
  · have hn : ¬ fr.fileName = "word/document.xml" := by
      intro hname
      rw [hname] at hc
      exact hc hdoc
    simp [hc, hn]

/-- C17: every part `getFileReaders` selects that falls through to the content
branch of `ReadAllFiles` (its name holds neither "header" nor "footer" nor
"footnotes") is named exactly "word/document.xml"; so for a reader built by
`NewReader` or `NewReaderFromBytes` whose parts scan successfully, the
content string is `strings.TrimSpace` of the texts of the parts with that
name alone. -/
theorem content_comes_from_body_part (zipReader : ZipReader) (env : Env) (fx : Effects)
    (docxPath : String) (byteValues : List Nat) (r : Reader)
    (hbuilt : (NewReader env fx docxPath).1.1 = some r ∨
      (NewReaderFromBytes env byteValues).1 = some r) :
    (∀ fr ∈ (getFileReaders zipReader).1, Contains fr.fileName "header" = false →
      Contains fr.fileName "footer" = false → Contains fr.fileName "footnotes" = false →
      fr.fileName = "word/document.xml") ∧
    (∀ fr ∈ r.fileReaders, Contains fr.fileName "header" = false →
      Contains fr.fileName "footer" = false → Contains fr.fileName "footnotes" = false →
      fr.fileName = "word/document.xml") ∧
    ((∀ fr ∈ r.fileReaders, (readSingleFile fr.decoder).1.2 = none) →
      (ReadAllFiles r).1.contentValue =
        TrimSpace (joinAll ((r.fileReaders.filter
          (fun fr => fr.fileName = "word/document.xml")).map
            (fun fr => (readSingleFile fr.decoder).1.1)))) := by
  have hr : ∃ z : ZipReader, r.fileReaders = (getFileReaders z).1 := by
    rcases hbuilt with h | h
    · obtain ⟨z, hz⟩ := NewReader_built env fx docxPath r h
      exact ⟨z, by rw [hz]⟩
    · obtain ⟨z, hz⟩ := NewReaderFromBytes_built env byteValues r h
      exact ⟨z, by rw [hz]⟩
  obtain ⟨z, hz⟩ := hr
  have hnames : ∀ fr ∈ r.fileReaders, Contains fr.fileName "header" = false →
      Contains fr.fileName "footer" = false → Contains fr.fileName "footnotes" = false →
      fr.fileName = "word/document.xml" := by
    intro fr hfr
    rw [hz] at hfr
    exact getFileReaders_content_name z fr hfr
  refine ⟨fun fr hfr => getFileReaders_content_name zipReader fr hfr, hnames, ?_⟩
  intro hok
  simp only [ReadAllFiles, ReadAllFilesLoop_ok r.fileReaders hok, trimmedString,
    String.empty_append, content_text_of_selected r.fileReaders hnames]

theorem content_comes_from_body_part_witness :
    ((NewReader fixtureEnv ⟨[], [], []⟩ "testdata/test.DOCX").1.1 =
        some ⟨"", false, false,
          [⟨"word/header1.xml", ⟨sampleParagraph "test header", Err.EOF⟩⟩,
            ⟨"word/document.xml",
              ⟨sampleParagraph "Title" ++ sampleParagraph "Subtitle", Err.EOF⟩⟩]⟩ ∨
      (NewReaderFromBytes fixtureEnv [80, 75, 3, 4]).1 =
        some ⟨"", false, false,
          [⟨"word/header1.xml", ⟨sampleParagraph "test header", Err.EOF⟩⟩,
            ⟨"word/document.xml",
              ⟨sampleParagraph "Title" ++ sampleParagraph "Subtitle", Err.EOF⟩⟩]⟩) ∧
    ∀ fr ∈ [(⟨"word/header1.xml", ⟨sampleParagraph "test header", Err.EOF⟩⟩ : FileReader),
        ⟨"word/document.xml", ⟨sampleParagraph "Title" ++ sampleParagraph "Subtitle", Err.EOF⟩⟩],
      Contains fr.fileName "header" = false → Contains fr.fileName "footer" = false →
      Contains fr.fileName "footnotes" = false → fr.fileName = "word/document.xml" :=
  ⟨Or.inr fixture_built,
    (content_comes_from_body_part fixtureZip fixtureEnv ⟨[], [], []⟩ "testdata/test.DOCX"
      [80, 75, 3, 4] _ (Or.inr fixture_built)).2.1⟩

/-! ## Termination and exhausted streams -/

theorem readSingleFileFuel_enough :
    ∀ (fuel : Nat) (content : String) (decoder : Decoder), decoder.tokens.length < fuel →
      readSingleFileFuel fuel content decoder = some (readSingleFileLoop content decoder) := by
  intro fuel
  induction fuel with
  | zero =>
    intro content decoder h
    omega
  | succ n ih =>
    intro content decoder h
    rw [readSingleFileFuel, readSingleFileLoop]
    by_cases h1 : (read decoder).1.2 = some Err.EOF
    · simp [h1]
    · by_cases h2 : (read decoder).1.2 = none
      · have hl := read_length decoder h2
        simp only [h1, if_false, h2, ne_eq, not_true_eq_false, dite_false]
        exact ih _ _ (by omega)
      · simp [h1, h2]

/-- C18: `readSingleFile` returns on every finite stream: run for one more
iteration than the stream has events, its loop has returned, with the result
of `readSingleFile`.  An iteration that does not return has read at least
one event, and when `readSingleFile` returns the stream is read to its
end. -/
theorem readSingleFile_terminates (decoder : Decoder) :
    readSingleFileFuel (decoder.tokens.length + 1) "" decoder =
      some (readSingleFile decoder) ∧
    ((read decoder).1.2 = none →
      (read decoder).2.tokens.length < decoder.tokens.length) ∧
    (readSingleFile decoder).2.tokens = [] := by
  refine ⟨readSingleFileFuel_enough _ "" decoder (Nat.lt_succ_self _), read_length decoder, ?_⟩
  rw [readSingleFile_tokens]

theorem readSingleFile_terminates_witness :
    (read ⟨sampleParagraph "x" ++ sampleParagraph "y", Err.EOF⟩).1.2 = none ∧
      (read ⟨sampleParagraph "x" ++ sampleParagraph "y", Err.EOF⟩).2.tokens.length <
        (⟨sampleParagraph "x" ++ sampleParagraph "y", Err.EOF⟩ : Decoder).tokens.length := by
  have h : (read ⟨sampleParagraph "x" ++ sampleParagraph "y", Err.EOF⟩).1.2 = none := by
    simp [sampleParagraph, read, seekNextTag, seekParagraph, seekNextTagLoop,
      seekParagraphLoop, seekTextLoop, startOf, endOf, xmlTab, xmlParagraph]
  exact ⟨h, (readSingleFile_terminates
    ⟨sampleParagraph "x" ++ sampleParagraph "y", Err.EOF⟩).2.1 h⟩

theorem ReadAllFilesLoop_state (fileReaders : List FileReader) :
    (∀ fr ∈ fileReaders, fr.decoder.err = Err.EOF) →
    ∀ (header footer footnotes content : String),
      (ReadAllFilesLoop header footer footnotes content fileReaders).2 =
        fileReaders.map (fun fr => ⟨fr.fileName, ⟨[], Err.EOF⟩⟩) := by
  induction fileReaders with
  | nil =>
    intro _ header footer footnotes content
    simp [ReadAllFilesLoop]
  | cons x rest ih =>
    intro h header footer footnotes content
    have hx := h x (List.mem_cons_self _ _)
    have h0 := readSingleFile_of_EOF x.decoder hx
    have h1 : (readSingleFile x.decoder).2 = ⟨[], Err.EOF⟩ := by
      rw [readSingleFile_tokens, hx]
    have hrest := ih (fun y hy => h y (List.mem_cons_of_mem _ hy))
    simp only [ReadAllFilesLoop, h0, h1, List.map_cons]
    split_ifs <;> simp [hrest]

theorem sectionText_exhausted (sec : Section) (fileReaders : List FileReader) :
    (∀ fr ∈ fileReaders, fr.decoder = ⟨[], Err.EOF⟩) → sectionText sec fileReaders = "" := by
  induction fileReaders with
  | nil =>
    intro _
    simp [sectionText, joinAll]
  | cons x rest ih =>
    intro h
    have hx := h x (List.mem_cons_self _ _)
    have hrest := ih (fun y hy => h y (List.mem_cons_of_mem _ hy))
    have ht : (readSingleFile x.decoder).1.1 = "" := by
      rw [hx, readSingleFile, readSingleFileLoop_tail "" [] rfl]
    rw [sectionText_cons, ht, hrest]
    simp

/-- C19: the streams are used up, not rewound: after a call of `ReadAllFiles`
that returned a nil error, every part of the reader is at the end of its
stream, and a second call on the reader returns four empty strings and a nil
error, whatever the first call returned. -/
theorem ReadAllFiles_second_call (r : Reader) (h : (ReadAllFiles r).1.err = none) :
    (∀ fr ∈ (ReadAllFiles r).2.fileReaders, fr.decoder = ⟨[], Err.EOF⟩) ∧
    (ReadAllFiles (ReadAllFiles r).2).1 = ⟨"", "", "", "", none⟩ := by
  have hall : ∀ fr ∈ r.fileReaders, fr.decoder.err = Err.EOF := by
    intro fr hfr
    by_contra hne
    exact (ReadAllFiles_err_iff r).mpr ⟨fr, hfr, hne⟩ h
  have hstate : (ReadAllFiles r).2.fileReaders =
      r.fileReaders.map (fun fr => ⟨fr.fileName, ⟨[], Err.EOF⟩⟩) := by
    simp only [ReadAllFiles, ReadAllFilesLoop_state r.fileReaders hall]
  have hdone : ∀ fr ∈ (ReadAllFiles r).2.fileReaders, fr.decoder = ⟨[], Err.EOF⟩ := by
    intro fr hfr
    rw [hstate, List.mem_map] at hfr
    obtain ⟨x, -, hx⟩ := hfr
    rw [← hx]
  refine ⟨hdone, ?_⟩
  have hok : ∀ fr ∈ (ReadAllFiles r).2.fileReaders,
      (readSingleFile fr.decoder).1.2 = none := by
    intro fr hfr
    exact readSingleFile_of_EOF fr.decoder (by rw [hdone fr hfr])
  have hempty : TrimSpace "" = "" := by decide
  conv_lhs => rw [ReadAllFiles]
  simp only [ReadAllFilesLoop_ok _ hok, sectionText_exhausted _ _ hdone, trimmedString,
    String.empty_append, hempty]

theorem ReadAllFiles_second_call_witness :
    (ReadAllFiles sampleReader).1.err = none ∧
      (ReadAllFiles (ReadAllFiles sampleReader).2).1 = ⟨"", "", "", "", none⟩ := by
  have h : (ReadAllFiles sampleReader).1.err = none := by
    by_contra hne
    obtain ⟨fr, hfr, hbad⟩ := (ReadAllFiles_err_iff sampleReader).mp hne
    simp only [sampleReader, List.mem_cons, List.mem_singleton, List.not_mem_nil,
      or_false] at hfr
    rcases hfr with rfl | rfl | rfl <;> exact hbad rfl
  exact ⟨h, (ReadAllFiles_second_call sampleReader h).2⟩

/-! ## Closing a reader -/

/-- C20: `Close` returns nil for every reader, whatever the closes of the
handles return; a reader returned by `NewReader` or `NewReaderFromBytes` has
`fromDoc = false`, and `Close` on a reader with `fromDoc = false` removes no
file: the list of removed files is as before the call. -/
theorem Close_returns_nil_and_keeps_document (closeResult : String → Option Err)
    (fx : Effects) (r : Reader) (env : Env) (fx0 : Effects) (docxPath : String)
    (byteValues : List Nat) :
    (Close closeResult fx r).1 = none ∧
    (r.fromDoc = false → (Close closeResult fx r).2.removed = fx.removed) ∧
    (∀ built : Reader, (NewReader env fx0 docxPath).1.1 = some built →
      built.fromDoc = false ∧ (Close closeResult fx built).2.removed = fx.removed) ∧
    (∀ built : Reader, (NewReaderFromBytes env byteValues).1 = some built →
      built.fromDoc = false ∧ (Close closeResult fx built).2.removed = fx.removed) := by
  have hkeep : ∀ x : Reader, x.fromDoc = false →
      (Close closeResult fx x).2.removed = fx.removed := by
    intro x hx
    cases hd : x.docx <;> simp [Close, hx, hd]
  refine ⟨rfl, hkeep r, ?_, ?_⟩
  · intro built hb
    obtain ⟨z, hz⟩ := NewReader_built env fx0 docxPath built hb
    have hf : built.fromDoc = false := by rw [hz]
    exact ⟨hf, hkeep built hf⟩
  · intro built hb
    obtain ⟨z, hz⟩ := NewReaderFromBytes_built env byteValues built hb
    have hf : built.fromDoc = false := by rw [hz]
    exact ⟨hf, hkeep built hf⟩

theorem Close_returns_nil_and_keeps_document_witness :
    sampleReader.fromDoc = false ∧
      (Close (fun _ => some (Err.other "close: file already closed")) ⟨[], [], []⟩
        sampleReader).2.removed = [] :=
  ⟨rfl,
    (Close_returns_nil_and_keeps_document
      (fun _ => some (Err.other "close: file already closed")) ⟨[], [], []⟩ sampleReader
      fixtureEnv ⟨[], [], []⟩ "testdata/test.DOCX" [80, 75, 3, 4]).2.1 rfl⟩

end Docc
